import Mathlib

/-!
Verification of the Qrack coherent-register simulator (qrack.hpp, qrack_ocl.cpp)
against its natural-language specification.

Modelling conventions:
* C++ double and std::complex<double> are modelled by the real numbers and the
  Mathlib complex numbers; the claims under study concern real-arithmetic
  structure, not floating-point rounding.
* The amplitude buffer (a heap array of length maxQPower) is modelled as a
  total function on the naturals.  The simulator only ever reads indices below
  maxQPower, so loop writes are modelled unguarded; a freshly allocated
  uninitialized buffer is modelled by an explicit junk parameter.
* bitCapInt is uint64_t; machine integers are modelled as naturals, with the
  64-bit complement written as xor with 2 ^ 64 - 1.
* The pseudo-random source (std::uniform_real_distribution) is treated as a
  pluggable input: each operation that draws from it takes the drawn values
  as explicit arguments (a probability u in the unit interval and an angle).
* The parallel dispatch drivers par_for_all / par_for_copy / par_norm are
  declared and used by the sources but their definitions are not among the
  provided files; they are modelled from the specification, section 4.1:
  the striped body runs exactly once per index, the copy body scatters
  src-reads into a destination buffer once per index, and the L2-norm reducer
  returns the square root of the sum of squared amplitude norms.
-/

namespace Qrack

/-- Coherent register state: qubit count, cached vector length, cached L2 norm
and the amplitude buffer, mirroring the data members of CoherentUnit /
Register. -/
structure CU where
  qubitCount : ℕ
  maxQPower : ℕ
  runningNorm : ℝ
  vec : ℕ → ℂ

/-- Sum of squared amplitude magnitudes over the register range; std::norm of
an entry is Complex.normSq. -/
noncomputable def normSqSum (s : CU) : ℝ :=
  ∑ i in Finset.range s.maxQPower, Complex.normSq (s.vec i)

/-- UpdateRunningNorm: runningNorm := par_norm(maxQPower, stateVec), the
square root of the parallel sum of squared norms (par_norm modelled from the
spec, section 4.1). -/
noncomputable def UpdateRunningNorm (s : CU) : CU :=
  { s with runningNorm := Real.sqrt (normSqSum s) }

/-- NormalizeState: divide every amplitude by runningNorm and reset
runningNorm to 1. -/
noncomputable def NormalizeState (s : CU) : CU :=
  { s with vec := fun i => s.vec i / (s.runningNorm : ℂ), runningNorm := 1 }

/-- The guard `if (runningNorm != 1.0) NormalizeState();` that opens each
observable read in the sources. -/
noncomputable def preNorm (s : CU) : CU :=
  if s.runningNorm ≠ 1 then NormalizeState s else s

/-- Prob(qubitIndex): sum of squared norms over indices with the qubit bit
set, after the normalization guard (CoherentUnit::Prob). -/
noncomputable def Prob (q : ℕ) (s : CU) : ℝ :=
  let s1 := preNorm s
  ∑ i in Finset.range s1.maxQPower,
    if i &&& 2 ^ q = 2 ^ q then Complex.normSq (s1.vec i) else 0

/-- ProbAll(fullRegister) (CoherentUnit::ProbAll). -/
noncomputable def ProbAll (p : ℕ) (s : CU) : ℝ :=
  let s1 := preNorm s
  Complex.normSq (s1.vec p)

/-- ProbArray: writes the per-basis-state probabilities into the output
buffer, modelled as the produced function (CoherentUnit::ProbArray). -/
noncomputable def ProbArray (s : CU) : ℕ → ℝ :=
  let s1 := preNorm s
  fun i => Complex.normSq (s1.vec i)

/-- CloneRawState: copies the (normalized) amplitudes to the caller buffer,
modelled as the copied function (CoherentUnit::CloneRawState). -/
noncomputable def CloneRawState (s : CU) : ℕ → ℂ :=
  let s1 := preNorm s
  fun i => s1.vec i

/-- Index expansion of the apply2x2 OpenCL kernel for bitCount = 1:
iLow = iHigh mod qPower; i = iLow + ((iHigh - iLow) << 1). -/
def expandBit (p k : ℕ) : ℕ := k % p + 2 * (k - k % p)

/-- One iteration of the apply2x2 kernel body at expanded index i with
offset1 = p and offset2 = 0: reads the amplitude pair, multiplies by the
2x2 matrix scaled by nrm, and writes the pair back. -/
def gateStep (p : ℕ) (m0 m1 m2 m3 nrm : ℂ) (i : ℕ) (buf : ℕ → ℂ) : ℕ → ℂ :=
  let q0 := buf (i + p)
  let q1 := buf i
  fun j =>
    if j = i + p then nrm * (m0 * q0 + m1 * q1)
    else if j = i then nrm * (m2 * q0 + m3 * q1)
    else buf j

/-- The apply2x2 kernel dispatched with bitCount = 1, qPowersSorted = [2^q],
offset1 = 2^q, offset2 = 0: the strided work-item counter enumerates each
compressed index below maxQPower >> 1 exactly once. -/
def applySingleVec (q : ℕ) (m0 m1 m2 m3 nrm : ℂ) (maxQ : ℕ) (v : ℕ → ℂ) : ℕ → ℂ :=
  (List.range (maxQ >>> 1)).foldl
    (fun buf k => gateStep (2 ^ q) m0 m1 m2 m3 nrm (expandBit (2 ^ q) k) buf) v

/-- CoherentUnit::ApplySingleBit: apply2x2 with doApplyNorm = true, so the
matrix is scaled by 1 / runningNorm; afterwards runningNorm is recomputed if
doCalcNorm, else reasserted to 1. -/
noncomputable def ApplySingleBit (q : ℕ) (m0 m1 m2 m3 : ℂ) (doCalcNorm : Bool) (s : CU) : CU :=
  let nrm : ℂ := ((1 / s.runningNorm : ℝ) : ℂ)
  let s1 := { s with vec := applySingleVec q m0 m1 m2 m3 nrm s.maxQPower s.vec }
  if doCalcNorm then UpdateRunningNorm s1 else { s1 with runningNorm := 1 }

/-- CoherentUnit::X single-bit gate: Pauli X matrix, doCalcNorm = false. -/
noncomputable def Xgate (q : ℕ) (s : CU) : CU :=
  ApplySingleBit q 0 1 1 0 false s

/-- CoherentUnit::RX: matrix entries cos(radians/2) on the diagonal and
(0, -sin(radians/2)) off the diagonal, doCalcNorm = true.  The Register::RX
body in qrack.hpp is identical. -/
noncomputable def RX (radians : ℝ) (q : ℕ) (s : CU) : CU :=
  let cosine := Real.cos (radians / 2)
  let sine := Real.sin (radians / 2)
  ApplySingleBit q ⟨cosine, 0⟩ ⟨0, -sine⟩ ⟨0, -sine⟩ ⟨cosine, 0⟩ true s

/-- CoherentUnit::RY (same body in Register::RY). -/
noncomputable def RY (radians : ℝ) (q : ℕ) (s : CU) : CU :=
  let cosine := Real.cos (radians / 2)
  let sine := Real.sin (radians / 2)
  ApplySingleBit q ⟨cosine, 0⟩ ⟨-sine, 0⟩ ⟨sine, 0⟩ ⟨cosine, 0⟩ true s

/-- CoherentUnit::RZ (same body in Register::RZ). -/
noncomputable def RZ (radians : ℝ) (q : ℕ) (s : CU) : CU :=
  let cosine := Real.cos (radians / 2)
  let sine := Real.sin (radians / 2)
  ApplySingleBit q ⟨cosine, -sine⟩ 0 0 ⟨cosine, sine⟩ true s

/-- CoherentUnit::R1: diag(1, (cos(radians/2), sin(radians/2))). -/
noncomputable def R1ocl (radians : ℝ) (q : ℕ) (s : CU) : CU :=
  let cosine := Real.cos (radians / 2)
  let sine := Real.sin (radians / 2)
  ApplySingleBit q 1 0 0 ⟨cosine, sine⟩ true s

/-- Register::R1 (qrack.hpp): diag(1, (cos(radians), sin(radians))), without
the division of the angle by two. -/
noncomputable def R1hpp (radians : ℝ) (q : ℕ) (s : CU) : CU :=
  let cosine := Real.cos radians
  let sine := Real.sin radians
  ApplySingleBit q 1 0 0 ⟨cosine, sine⟩ true s

/-- CoherentUnit::R1Dyad: R1((M_PI * numerator * 2) / denominator). -/
noncomputable def R1DyadOcl (num den : ℤ) (q : ℕ) (s : CU) : CU :=
  R1ocl ((Real.pi * (num : ℝ) * 2) / (den : ℝ)) q s

/-- CoherentUnit::RXDyad: RX((-M_PI * numerator * 2) / denominator). -/
noncomputable def RXDyadOcl (num den : ℤ) (q : ℕ) (s : CU) : CU :=
  RX ((-Real.pi * (num : ℝ) * 2) / (den : ℝ)) q s

/-- CoherentUnit::RYDyad: RY((-M_PI * numerator * 2) / denominator). -/
noncomputable def RYDyadOcl (num den : ℤ) (q : ℕ) (s : CU) : CU :=
  RY ((-Real.pi * (num : ℝ) * 2) / (den : ℝ)) q s

/-- CoherentUnit::RZDyad: RZ((-M_PI * numerator * 2) / denominator). -/
noncomputable def RZDyadOcl (num den : ℤ) (q : ℕ) (s : CU) : CU :=
  RZ ((-Real.pi * (num : ℝ) * 2) / (den : ℝ)) q s

/-- Register::R1Dyad (qrack.hpp): R1((M_PI * numerator) / denominator),
without the factor of two. -/
noncomputable def R1DyadHpp (num den : ℤ) (q : ℕ) (s : CU) : CU :=
  R1hpp ((Real.pi * (num : ℝ)) / (den : ℝ)) q s

/-- Register::RXDyad (qrack.hpp): RX((-M_PI * numerator) / denominator). -/
noncomputable def RXDyadHpp (num den : ℤ) (q : ℕ) (s : CU) : CU :=
  RX ((-Real.pi * (num : ℝ)) / (den : ℝ)) q s

/-- Register::RYDyad (qrack.hpp): RY((-M_PI * numerator) / denominator). -/
noncomputable def RYDyadHpp (num den : ℤ) (q : ℕ) (s : CU) : CU :=
  RY ((-Real.pi * (num : ℝ)) / (den : ℝ)) q s

/-- Register::RZDyad (qrack.hpp): RZ((-M_PI * numerator) / denominator). -/
noncomputable def RZDyadHpp (num den : ℤ) (q : ℕ) (s : CU) : CU :=
  RZ ((-Real.pi * (num : ℝ)) / (den : ℝ)) q s

/-- CoherentUnit::M (qrack_ocl.cpp).  u is the drawn probability and theta the
drawn phase angle.  result = (prob < oneChance) && oneChance > 0; in the
result-true branch the code sets nrmlzr = oneChance (default 1), in the false
branch nrmlzr = sqrt(1 - oneChance) (default 1); the par_for_all body zeroes
the opposite outcome and multiplies survivors by (cos, sin)/nrmlzr; finally
UpdateRunningNorm. -/
noncomputable def Mgate (q : ℕ) (u θ : ℝ) (s : CU) : CU × Bool :=
  let s1 := preNorm s
  let cosine := Real.cos θ
  let sine := Real.sin θ
  let qPower := 2 ^ q
  let oneChance := Prob q s1
  let result : Bool := decide (u < oneChance) && decide (0 < oneChance)
  if result then
    let nrmlzr : ℝ := if 0 < oneChance then oneChance else 1
    let nrm : ℂ := (⟨cosine, sine⟩ : ℂ) / ((nrmlzr : ℝ) : ℂ)
    let v : ℕ → ℂ := fun i => if i &&& qPower = 0 then 0 else nrm * s1.vec i
    (UpdateRunningNorm { s1 with vec := v }, result)
  else
    let nrmlzr : ℝ := if oneChance < 1 then Real.sqrt (1 - oneChance) else 1
    let nrm : ℂ := (⟨cosine, sine⟩ : ℂ) / ((nrmlzr : ℝ) : ℂ)
    let v : ℕ → ℂ := fun i => if i &&& qPower = 0 then nrm * s1.vec i else 0
    (UpdateRunningNorm { s1 with vec := v }, result)

/-- Register::MAll (qrack.hpp): Bernoulli on the squared norm of the chosen
amplitude, with no prior normalization guard and no running-norm update. -/
noncomputable def MAll (p : ℕ) (u θ : ℝ) (s : CU) : CU × Bool :=
  let cosine := Real.cos θ
  let sine := Real.sin θ
  let oneChance := Complex.normSq (s.vec p)
  let result : Bool := decide (u < oneChance)
  if result then
    ({ s with vec := fun i => if i = p then (⟨cosine, sine⟩ : ℂ) else 0 }, result)
  else
    let nrmlzr := Real.sqrt (1 - oneChance)
    ({ s with vec := fun i =>
        if i = p then 0 else (⟨cosine, sine⟩ : ℂ) * s.vec i / ((nrmlzr : ℝ) : ℂ) }, result)

/-- CoherentUnit::SetBit: measure the bit, then apply X when the measured
value differs from the requested one. -/
noncomputable def SetBit (q : ℕ) (value : Bool) (u θ : ℝ) (s : CU) : CU :=
  let r := Mgate q u θ s
  if value ≠ r.2 then Xgate q r.1 else r.1

/-- Error raised by precondition checks (std::invalid_argument). -/
inductive QError where
  | invalidArgument
deriving DecidableEq

/-- sizeof(bitCapInt) * bitsInByte: the index type is uint64_t. -/
def bitsCapacity : ℕ := 64

/-- CoherentUnit::CoherentUnit(bitLenInt): checks qBitCount against the word
width, then builds the all-zeros state with amplitude (cos, sin) at index 0
and runningNorm 1.  Register::Register(bitLenInt) in qrack.hpp performs the
same check and initialization. -/
noncomputable def mkZero (qBitCount : ℕ) (θ : ℝ) : Except QError CU :=
  if qBitCount > bitsCapacity then .error .invalidArgument
  else .ok
    { qubitCount := qBitCount, maxQPower := 2 ^ qBitCount, runningNorm := 1,
      vec := fun i => if i = 0 then (⟨Real.cos θ, Real.sin θ⟩ : ℂ) else 0 }

/-- CoherentUnit::CoherentUnit(bitLenInt, bitCapInt): performs no word-width
check; builds the chosen-permutation state with amplitude (cos, sin) at the
initState index.  Register::Register(bitLenInt, bitCapInt) likewise performs
no check. -/
noncomputable def mkPerm (qBitCount initState : ℕ) (θ : ℝ) : Except QError CU :=
  .ok
    { qubitCount := qBitCount, maxQPower := 2 ^ qBitCount, runningNorm := 1,
      vec := fun i => if i = initState then (⟨Real.cos θ, Real.sin θ⟩ : ℂ) else 0 }

/-- Register::Register(const Register&) (qrack.hpp): copies runningNorm,
qubitCount and maxQPower, allocates a fresh buffer of maxQPower entries, but
then copies only qubitCount amplitudes: std::copy(pqs.stateVec,
pqs.stateVec + qubitCount, stateVec).  Entries above qubitCount stay
uninitialized (the junk parameter). -/
def cloneHpp (junk : ℕ → ℂ) (r : CU) : CU :=
  { qubitCount := r.qubitCount, maxQPower := r.maxQPower,
    runningNorm := r.runningNorm,
    vec := fun i => if i < r.qubitCount then r.vec i else junk i }

/-- CoherentUnit::CoherentUnit(const CoherentUnit&) (qrack_ocl.cpp): copies
runningNorm, qubitCount, maxQPower and all maxQPower amplitudes. -/
def cloneOcl (junk : ℕ → ℂ) (r : CU) : CU :=
  { qubitCount := r.qubitCount, maxQPower := r.maxQPower,
    runningNorm := r.runningNorm,
    vec := fun i => if i < r.maxQPower then r.vec i else junk i }

/-- CoherentUnit::Cohere: normalize both registers (guarded), build the sum
masks by the two accumulation loops, then fill the new 2^(n1+n2) vector with
phaseFac * sqrt(norm(self[i & startMask]) * norm(other[(i & endMask) >>
qubitCount])) and recompute the running norm.  The second component is the
post-call state of the read register (mutated only by its normalization
guard). -/
noncomputable def Cohere (θ : ℝ) (s t : CU) : CU × CU :=
  let s1 := preNorm s
  let t1 := preNorm t
  let nQubitCount := s1.qubitCount + t1.qubitCount
  let nMaxQPower := 2 ^ nQubitCount
  let startMask := ∑ i in Finset.range s1.qubitCount, 2 ^ i
  let endMask := ∑ i in Finset.Ico s1.qubitCount nQubitCount, 2 ^ i
  let phaseFac : ℂ := (⟨Real.cos θ, Real.sin θ⟩ : ℂ)
  let nVec : ℕ → ℂ := fun i =>
    phaseFac * ((Real.sqrt (Complex.normSq (s1.vec (i &&& startMask)) *
      Complex.normSq (t1.vec ((i &&& endMask) >>> s1.qubitCount))) : ℝ) : ℂ)
  (UpdateRunningNorm
    { qubitCount := nQubitCount, maxQPower := nMaxQPower,
      runningNorm := s1.runningNorm, vec := nVec }, t1)

/-- CoherentUnit::Decohere: normalize (guarded), accumulate the two marginal
probability distributions, truncate self to the remainder bits and write the
part bits into the destination register, each with a fresh global phase;
when a marginal total is zero only index 0 of the corresponding (zero-filled
for self, caller-owned for dest) buffer is set to the phase.  Both running
norms are recomputed. -/
noncomputable def Decohere (start length : ℕ) (θ1 θ2 : ℝ) (s dest : CU) : CU × CU :=
  let s1 := preNorm s
  let endq := start + length
  let mask := ∑ i in Finset.Ico start endq, 2 ^ i
  let startMask := ∑ i in Finset.range start, 2 ^ i
  let endMask := ∑ i in Finset.Ico endq s1.qubitCount, 2 ^ i
  let partPower := 2 ^ length
  let remainderPower := 2 ^ (s1.qubitCount - length)
  let partStateProb : ℕ → ℝ := fun k =>
    ∑ i in Finset.range s1.maxQPower,
      if (i &&& mask) >>> start = k then Complex.normSq (s1.vec i) else 0
  let remainderStateProb : ℕ → ℝ := fun j =>
    ∑ i in Finset.range s1.maxQPower,
      if (i &&& startMask) + ((i &&& endMask) >>> length) = j then
        Complex.normSq (s1.vec i) else 0
  let phase1 : ℂ := (⟨Real.cos θ1, Real.sin θ1⟩ : ℂ)
  let totPart := ∑ i in Finset.range partPower, partStateProb i
  let destVec : ℕ → ℂ :=
    if totPart = 0 then fun i => if i = 0 then phase1 else dest.vec i
    else fun i => ((Real.sqrt (partStateProb i / totPart) : ℝ) : ℂ) * phase1
  let phase2 : ℂ := (⟨Real.cos θ2, Real.sin θ2⟩ : ℂ)
  let totRem := ∑ i in Finset.range remainderPower, remainderStateProb i
  let remVec : ℕ → ℂ :=
    if totRem = 0 then fun i => if i = 0 then phase2 else 0
    else fun i => ((Real.sqrt (remainderStateProb i / totRem) : ℝ) : ℂ) * phase2
  (UpdateRunningNorm
    { qubitCount := s1.qubitCount - length, maxQPower := remainderPower,
      runningNorm := s1.runningNorm, vec := remVec },
   UpdateRunningNorm { dest with vec := destVec })

/-- CoherentUnit::Dispose: as Decohere but the part distribution is
discarded; only the remainder survives. -/
noncomputable def Dispose (start length : ℕ) (θ : ℝ) (s : CU) : CU :=
  let s1 := preNorm s
  let endq := start + length
  let startMask := ∑ i in Finset.range start, 2 ^ i
  let endMask := ∑ i in Finset.Ico endq s1.qubitCount, 2 ^ i
  let remainderPower := 2 ^ (s1.qubitCount - length)
  let remainderStateProb : ℕ → ℝ := fun j =>
    ∑ i in Finset.range s1.maxQPower,
      if (i &&& startMask) + ((i &&& endMask) >>> length) = j then
        Complex.normSq (s1.vec i) else 0
  let phase : ℂ := (⟨Real.cos θ, Real.sin θ⟩ : ℂ)
  let totRem := ∑ i in Finset.range remainderPower, remainderStateProb i
  let remVec : ℕ → ℂ :=
    if totRem = 0 then fun i => if i = 0 then phase else 0
    else fun i => ((Real.sqrt (remainderStateProb i / totRem) : ℝ) : ℂ) * phase
  UpdateRunningNorm
    { qubitCount := s1.qubitCount - length, maxQPower := remainderPower,
      runningNorm := s1.runningNorm, vec := remVec }

/-- Scatter dispatch: run the copy body once per source index lcv in
[0, maxI), writing src lcv into the destination buffer at destFn lcv.
Modelled from the spec, section 4.1 (the par_for_copy driver and the
single-work-group kernel launches execute the body exactly once per index);
the per-index destination functions below are translated from the source
bodies.  The initial buffer is the freshly allocated (uninitialized or
zero-filled, per call site) destination array. -/
def scatterVec (maxI : ℕ) (src : ℕ → ℂ) (destFn : ℕ → ℕ) (init : ℕ → ℂ) : ℕ → ℂ :=
  (List.range maxI).foldl (fun buf lcv => Function.update buf (destFn lcv) (src lcv)) init

/-- Destination index of the range-broadcast X body (CoherentUnit::X(start,
length)): nStateVec[((~lcv) & inOutMask) | (lcv & otherMask)] = stateVec[lcv],
with ~ the 64-bit complement. -/
def xRangeDest (inOutMask otherMask lcv : ℕ) : ℕ :=
  ((lcv ^^^ (2 ^ 64 - 1)) &&& inOutMask) ||| (lcv &&& otherMask)

/-- CoherentUnit::X(start, length): build inOutMask by the accumulation loop
and otherMask as its complement in the register, then scatter every amplitude
through the complementing body into a fresh (uninitialized) buffer and swap
it in. -/
def Xrange (start length : ℕ) (junk : ℕ → ℂ) (s : CU) : CU :=
  let inOutMask := ∑ i in Finset.range length, 2 ^ (start + i)
  let otherMask := (2 ^ s.qubitCount - 1) - inOutMask
  { s with vec := scatterVec s.maxQPower s.vec (xRangeDest inOutMask otherMask) junk }

/-- Destination index of the rol OpenCL kernel body: outInt =
(regInt >> (length - shift)) | ((regInt << shift) & lengthMask), written to
(outInt << start) + otherRes. -/
def rolDest (regMask otherMask lengthPower start shift length lcv : ℕ) : ℕ :=
  let lengthMask := lengthPower - 1
  let otherRes := lcv &&& otherMask
  let regRes := lcv &&& regMask
  let regInt := regRes >>> start
  let outInt := (regInt >>> (length - shift)) ||| ((regInt <<< shift) &&& lengthMask)
  (outInt <<< start) + otherRes

/-- Destination index of the ror OpenCL kernel body: outInt =
((regInt >> shift) & lengthMask) | (regInt << (length - shift)), written to
(outInt << start) + otherRes.  Note the mask sits on the right-shifted
operand, not on the left-shifted one. -/
def rorDest (regMask otherMask lengthPower start shift length lcv : ℕ) : ℕ :=
  let lengthMask := lengthPower - 1
  let otherRes := lcv &&& otherMask
  let regRes := lcv &&& regMask
  let regInt := regRes >>> start
  let outInt := ((regInt >>> shift) &&& lengthMask) ||| (regInt <<< (length - shift))
  (outInt <<< start) + otherRes

/-- CoherentUnit::ROL: marshal the masks, run the rol kernel over all of
[0, maxQPower) into a fresh uninitialized buffer, swap it in. -/
def ROL (shift start length : ℕ) (junk : ℕ → ℂ) (s : CU) : CU :=
  let regMask := ∑ i in Finset.range length, 2 ^ (start + i)
  let otherMask := (2 ^ s.qubitCount - 1) - regMask
  let lengthPower := 2 ^ length
  let destFn := rolDest regMask otherMask lengthPower start shift length
  { s with vec := scatterVec s.maxQPower s.vec destFn junk }

/-- CoherentUnit::ROR: as ROL with the ror kernel. -/
def ROR (shift start length : ℕ) (junk : ℕ → ℂ) (s : CU) : CU :=
  let regMask := ∑ i in Finset.range length, 2 ^ (start + i)
  let otherMask := (2 ^ s.qubitCount - 1) - regMask
  let lengthPower := 2 ^ length
  let destFn := rorDest regMask otherMask lengthPower start shift length
  { s with vec := scatterVec s.maxQPower s.vec destFn junk }

/-- Conversion to uchar (8-bit truncation), applied wherever the addbcd
kernel stores a wide value into a uchar variable. -/
def u8 (x : ℕ) : ℕ := x % 256

/-- First loop of the addbcd kernel: for each nibble index j, store
test1 + test2 (as uchar) where test1/test2 are the masked but UNSHIFTED
operand bits truncated to uchar, and clear validity whenever test1 or test2
exceeds 9.  (The kernel omits the >> (j * 4) down-shift; the model keeps the
natural-number shift value where the 32-bit OpenCL int shift would wrap for
nibble indices at 8 and above, which only widens the divergence.) -/
def addbcdLoop1 (inOutInt inInt nibbleCount : ℕ) : List ℕ × Bool :=
  (List.range nibbleCount).foldl
    (fun acc j =>
      let test1 := u8 (inOutInt &&& (15 <<< (j * 4)))
      let test2 := u8 (inInt &&& (15 <<< (j * 4)))
      (acc.1 ++ [u8 (test1 + test2)],
       acc.2 && !(decide (9 < test1) || decide (9 < test2))))
    ([], true)

/-- Second loop of the addbcd kernel: propagate base-10 carries through the
nibble array and pack the result into outInt. -/
def addbcdLoop2 (nibbleCount : ℕ) (nibbles : List ℕ) : ℕ :=
  ((List.range nibbleCount).foldl
    (fun acc j =>
      let ns := acc.1
      let nj := ns.getD j 0
      if 9 < nj then
        let ns1 := ns.set j (nj - 10)
        let ns2 := if j + 1 < nibbleCount
          then ns1.set (j + 1) (u8 (ns1.getD (j + 1) 0 + 1)) else ns1
        (ns2, acc.2 ||| ((ns2.getD j 0) <<< (j * 4)))
      else (ns, acc.2 ||| (nj <<< (j * 4))))
    (nibbles, 0)).2

/-- Destination index of the addbcd OpenCL kernel body, reading its packed
parameters exactly at the slots the kernel text names (in particular
nibbleCount from ulongPtr[9]). -/
def addbcdDest (ulongPtr : List ℕ) (lcv : ℕ) : ℕ :=
  let inOutMask := ulongPtr.getD 1 0
  let inMask := ulongPtr.getD 2 0
  let otherMask := ulongPtr.getD 3 0
  let inOutStart := ulongPtr.getD 5 0
  let inStart := ulongPtr.getD 6 0
  let nibbleCount := ulongPtr.getD 9 0
  let otherRes := lcv &&& otherMask
  if otherRes = lcv then lcv
  else
    let inOutRes := lcv &&& inOutMask
    let inOutInt := inOutRes >>> inOutStart
    let inRes := lcv &&& inMask
    let inInt := inRes >>> inStart
    let r := addbcdLoop1 inOutInt inInt nibbleCount
    if r.2 then (addbcdLoop2 nibbleCount r.1 <<< inOutStart) ||| otherRes ||| inRes
    else lcv

/-- Host-side parameter marshalling of CoherentUnit::ADDBCD: bciArgs =
{maxQPower, inOutMask, inMask, otherMask, lengthPower, inOutStart, inStart,
nibbleCount, 0, 0} (nibbleCount is written at slot 7). -/
def addbcdArgs (qubitCount inOutStart inStart length : ℕ) : List ℕ :=
  let nibbleCount := length / 4
  let inOutMask := ∑ i in Finset.range length, 2 ^ (inOutStart + i)
  let inMask := ∑ i in Finset.range length, 2 ^ (inStart + i)
  let otherMask := (2 ^ qubitCount - 1) - (inOutMask + inMask)
  let lengthPower := 2 ^ length
  [2 ^ qubitCount, inOutMask, inMask, otherMask, lengthPower, inOutStart,
   inStart, nibbleCount, 0, 0]

/-- CoherentUnit::ADDBCD: reject lengths that are not multiples of 4, then
run the addbcd kernel over all of [0, maxQPower) into a fresh uninitialized
buffer and swap it in. -/
def ADDBCD (inOutStart inStart length : ℕ) (junk : ℕ → ℂ) (s : CU) :
    Except QError CU :=
  if ¬(length / 4 * 4 = length) then .error .invalidArgument
  else
    let destFn := addbcdDest (addbcdArgs s.qubitCount inOutStart inStart length)
    .ok { s with vec := scatterVec s.maxQPower s.vec destFn junk }

/-- Value of the BCD digit at nibble index j of a packed field. -/
def bcdDigit (x j : ℕ) : ℕ := (x >>> (j * 4)) &&& 15

/-- Numeric value of a packed BCD field with nc nibbles. Used only to state
what the specification demands of ADDBCD. -/
def bcdVal (nc x : ℕ) : ℕ := ∑ j in Finset.range nc, bcdDigit x j * 10 ^ j

/-- Packed BCD encoding of a number below 10^nc. Used only to state what the
specification demands of ADDBCD. -/
def bcdEnc (nc v : ℕ) : ℕ := ∑ j in Finset.range nc, (v / 10 ^ j % 10) <<< (j * 4)

/-- Destination index that the specification assigns to ADDBCD on a basis
state with valid BCD operands: the inOutStart field is replaced by the
per-nibble base-10 sum with carry, that is the BCD sum modulo 10^(length/4).
Modelled from the spec, sections 4.2, 4.6 and 8 (the kernel in the source
diverges from it; this definition exists to state the divergence). -/
def bcdClaimDest (qubitCount inOutStart inStart length lcv : ℕ) : ℕ :=
  let nc := length / 4
  let inOutMask := ∑ i in Finset.range length, 2 ^ (inOutStart + i)
  let inMask := ∑ i in Finset.range length, 2 ^ (inStart + i)
  let otherMask := (2 ^ qubitCount - 1) - (inOutMask + inMask)
  let a := (lcv &&& inOutMask) >>> inOutStart
  let b := (lcv &&& inMask) >>> inStart
  ((bcdEnc nc ((bcdVal nc a + bcdVal nc b) % 10 ^ nc)) <<< inOutStart) |||
    (lcv &&& otherMask) ||| (lcv &&& inMask)

/-- A register whose cached norm is exactly 1 skips the normalization
guard. -/
theorem preNorm_of_one (s : CU) (h : s.runningNorm = 1) : preNorm s = s := by
  simp [preNorm, h]

/-- On a one-qubit register the apply2x2 kernel performs a single pair
update at indices 1 and 0. -/
theorem applySingleVec_one (m0 m1 m2 m3 nrm : ℂ) (v : ℕ → ℂ) :
    applySingleVec 0 m0 m1 m2 m3 nrm 2 v = fun j =>
      if j = 1 then nrm * (m0 * v 1 + m1 * v 0)
      else if j = 0 then nrm * (m2 * v 1 + m3 * v 0)
      else v j := by
  have h2 : (2 : ℕ) >>> 1 = 1 := rfl
  have h1 : List.range 1 = [0] := rfl
  have he : expandBit 1 0 = 0 := rfl
  funext j
  simp [applySingleVec, h2, h1, gateStep, he]

/-- Concrete two-qubit register in basis state 2, input for the clone
divergence. -/
noncomputable def cloneSample : CU :=
  { qubitCount := 2, maxQPower := 4, runningNorm := 1,
    vec := fun i => if i = 2 then 1 else 0 }

/-- C4: the qrack.hpp copy constructor copies only qubitCount amplitudes, so
on a 2-qubit register in basis state 2 the clone loses the amplitude at index
2 (here the uninitialized tail is instantiated to zero), while the
qrack_ocl.cpp copy constructor preserves it. -/
theorem C4_clone_copies_qubitCount_entries :
    (cloneHpp (fun _ => 0) cloneSample).vec 2 = 0
    ∧ cloneSample.vec 2 = 1
    ∧ (cloneOcl (fun _ => 0) cloneSample).vec 2 = 1 := by
  refine ⟨?_, ?_, ?_⟩ <;> simp [cloneHpp, cloneOcl, cloneSample]

/-- C8 counterexample: the chosen-permutation constructor accepts a qubit
count of 65, above the 64-bit word width, without raising InvalidArgument. -/
theorem C8_cex_mkPerm_unchecked :
    bitsCapacity < 65 ∧ (mkPerm 65 0 0).isOk = true := by
  exact ⟨by norm_num [bitsCapacity], rfl⟩

/-- C8 (amended): the all-zeros constructor raises InvalidArgument exactly
when the requested qubit count exceeds the 64-bit word width and constructs
the register otherwise, while the chosen-permutation constructor performs no
word-width check and always constructs. -/
theorem C8_ctor_word_width_check :
    (∀ n θ, bitsCapacity < n → mkZero n θ = .error .invalidArgument)
    ∧ (∀ n θ, n ≤ bitsCapacity → (mkZero n θ).isOk = true)
    ∧ (∀ n p θ, (mkPerm n p θ).isOk = true) := by
  refine ⟨fun n θ h => ?_, fun n θ h => ?_, fun n p θ => rfl⟩
  · simp [mkZero, h]
  · simp [mkZero, Nat.not_lt.mpr h, Except.isOk, Except.toBool]

/-- Witness for C8: the boundary cases 65 and 64. -/
theorem C8_ctor_word_width_check_witness :
    mkZero 65 0 = .error .invalidArgument ∧ (mkZero 64 0).isOk = true :=
  ⟨C8_ctor_word_width_check.1 65 0 (by norm_num [bitsCapacity]),
   C8_ctor_word_width_check.2.1 64 0 (by norm_num [bitsCapacity])⟩

/-- C5: on ADDBCD(inOutStart = 0, inStart = 8, length = 8) over 16 qubits,
the basis state 272 holds the valid BCD operands 0x10 and 0x01 (all four
digits at most 9), the specification demands its amplitude move to index 273
(inOut field 0x11 = BCD 11), but the kernel sends it to index 256: it reads
nibbleCount from parameter slot 9 while the host wrote it in slot 7, so it
validates and sums zero nibbles and clears the inOut field. -/
theorem C5_addbcd_wrong_param_slot :
    addbcdDest (addbcdArgs 16 0 8 8) 272 = 256
    ∧ bcdClaimDest 16 0 8 8 272 = 273
    ∧ bcdDigit 16 0 ≤ 9 ∧ bcdDigit 16 1 ≤ 9
    ∧ bcdDigit 1 0 ≤ 9 ∧ bcdDigit 1 1 ≤ 9
    ∧ (256 : ℕ) ≠ 273 := by
  decide

/-- Concrete two-qubit register in basis state 1, input for the rotate
round-trip divergence. -/
noncomputable def rotSample : CU :=
  { qubitCount := 2, maxQPower := 4, runningNorm := 1,
    vec := fun i => if i = 1 then 1 else 0 }

/-- Unrolling of a four-element scatter. -/
theorem scatterVec_four (src : ℕ → ℂ) (destFn : ℕ → ℕ) (init : ℕ → ℂ) :
    scatterVec 4 src destFn init =
      Function.update (Function.update (Function.update (Function.update init
        (destFn 0) (src 0)) (destFn 1) (src 1)) (destFn 2) (src 2))
        (destFn 3) (src 3) := by
  have h4 : List.range 4 = [0, 1, 2, 3] := rfl
  simp [scatterVec, h4]

/-- C6: rotating the 2-bit range of a 2-qubit register left by one and then
right by one does not restore the state: the ror kernel masks the
right-shifted operand instead of the wrapped left-shifted one, so the
amplitude parked at index 2 after ROL scatters to the out-of-range index 5
and output index 1 is never written (the uninitialized buffer is
instantiated to zero). -/
theorem C6_rol_ror_not_inverse :
    (ROR 1 0 2 (fun _ => 0) (ROL 1 0 2 (fun _ => 0) rotSample)).vec 1 = 0
    ∧ rotSample.vec 1 = 1
    ∧ rorDest 3 0 4 0 1 2 2 = 5
    ∧ ((0 : ℂ)) ≠ 1 := by
  refine ⟨?_, by simp [rotSample], by decide, by norm_num⟩
  have hmask : (∑ i in Finset.range 2, 2 ^ (0 + i)) = 3 := by decide
  have hother : (2 ^ (2:ℕ) - 1) - 3 = 0 := by norm_num
  have hd0 : rorDest 3 0 4 0 1 2 0 = 0 := by decide
  have hd1 : rorDest 3 0 4 0 1 2 1 = 2 := by decide
  have hd2 : rorDest 3 0 4 0 1 2 2 = 5 := by decide
  have hd3 : rorDest 3 0 4 0 1 2 3 = 7 := by decide
  simp only [ROR, ROL, rotSample, hmask, hother, scatterVec_four, hd0, hd1, hd2, hd3]
  norm_num [Function.update, hd0, hd1, hd2, hd3]

/-- A zero phase draw contributes the unit phase factor. -/
theorem phase_zero_eq_one : ((⟨Real.cos 0, Real.sin 0⟩ : ℂ)) = 1 := by
  rw [Complex.mk_eq_add_mul_I]
  simp

/-- One-qubit register with real amplitudes 3/5 and 4/5 (normalized, cached
norm 1), input for the measurement divergence. -/
noncomputable def mSample : CU :=
  { qubitCount := 1, maxQPower := 2, runningNorm := 1,
    vec := fun i => if i = 1 then (((4 : ℝ)/5 : ℝ) : ℂ) else (((3 : ℝ)/5 : ℝ) : ℂ) }

/-- The one-probability of the only qubit of mSample. -/
theorem mSample_prob : Prob 0 mSample = 16 / 25 := by
  have hpre : preNorm mSample = mSample := preNorm_of_one _ rfl
  simp only [Prob, hpre]
  simp [mSample, Finset.sum_range_succ, Complex.normSq_ofReal]
  norm_num

/-- C1: on the normalized one-qubit state (3/5, 4/5) with u = 1/2 and a zero
phase draw, M measures true (oneChance = 16/25) but divides the surviving
amplitude by oneChance instead of sqrt(oneChance): the survivor becomes 5/4
and the recomputed running norm 5/4, while the claimed update
e^(i theta)/sqrt(oneChance) applied to the amplitude is exactly 1. -/
theorem C1_M_divides_by_oneChance :
    (Mgate 0 (1/2) 0 mSample).2 = true
    ∧ (Mgate 0 (1/2) 0 mSample).1.vec 1 = (((5 : ℝ)/4 : ℝ) : ℂ)
    ∧ (Mgate 0 (1/2) 0 mSample).1.runningNorm = 5/4
    ∧ ((⟨Real.cos 0, Real.sin 0⟩ : ℂ) /
        ((Real.sqrt (Prob 0 mSample) : ℝ) : ℂ)) * mSample.vec 1 = 1
    ∧ (((5 : ℝ)/4 : ℝ) : ℂ) ≠ 1 := by
  have hpre : preNorm mSample = mSample := preNorm_of_one _ rfl
  have hb : (decide ((1:ℝ)/2 < (16:ℝ)/25) && decide ((0:ℝ) < (16:ℝ)/25)) = true := by
    simp only [Bool.and_eq_true, decide_eq_true_eq]
    constructor <;> norm_num
  have hM : Mgate 0 (1/2) 0 mSample =
      (UpdateRunningNorm { mSample with vec := fun i =>
        if i &&& 2 ^ 0 = 0 then 0
        else ((⟨Real.cos 0, Real.sin 0⟩ : ℂ) / (((16:ℝ)/25 : ℝ) : ℂ)) * mSample.vec i },
       true) := by
    rw [Mgate]
    simp only [hpre, mSample_prob, hb, if_true]
    norm_num
  have hvec1 : (Mgate 0 (1/2) 0 mSample).1.vec 1 = (((5 : ℝ)/4 : ℝ) : ℂ) := by
    rw [hM]
    show (if (1:ℕ) &&& 2 ^ 0 = 0 then (0:ℂ)
      else ((⟨Real.cos 0, Real.sin 0⟩ : ℂ) / (((16:ℝ)/25 : ℝ) : ℂ)) * mSample.vec 1) = _
    rw [if_neg (by decide : ¬((1:ℕ) &&& 2 ^ 0 = 0)), phase_zero_eq_one]
    show (1:ℂ) / (((16:ℝ)/25 : ℝ) : ℂ) * (((4 : ℝ)/5 : ℝ) : ℂ) = _
    rw [one_div, ← Complex.ofReal_inv, ← Complex.ofReal_mul, Complex.ofReal_inj]
    norm_num
  have hv0 : (Mgate 0 (1/2) 0 mSample).1.vec 0 = 0 := by
    rw [hM]
    show (if (0:ℕ) &&& 2 ^ 0 = 0 then (0:ℂ)
      else ((⟨Real.cos 0, Real.sin 0⟩ : ℂ) / (((16:ℝ)/25 : ℝ) : ℂ)) * mSample.vec 0) = 0
    rw [if_pos (by decide)]
  have hmax : (Mgate 0 (1/2) 0 mSample).1.maxQPower = 2 := by
    rw [hM]; rfl
  have hsum : normSqSum (Mgate 0 (1/2) 0 mSample).1 = 25/16 := by
    rw [normSqSum, hmax, Finset.sum_range_succ, Finset.sum_range_one, hv0, hvec1,
      Complex.normSq_ofReal]
    simp
    norm_num
  have hrn : (Mgate 0 (1/2) 0 mSample).1.runningNorm =
      Real.sqrt (normSqSum (Mgate 0 (1/2) 0 mSample).1) := by
    rw [hM]; rfl
  refine ⟨by rw [hM], hvec1, ?_, ?_, ?_⟩
  · rw [hrn, hsum, show (25/16 : ℝ) = ((5:ℝ)/4) ^ 2 by norm_num]
    exact Real.sqrt_sq (by norm_num)
  · rw [mSample_prob, phase_zero_eq_one,
      show ((16:ℝ)/25) = ((4:ℝ)/5) ^ 2 by norm_num, Real.sqrt_sq (by norm_num)]
    show (1:ℂ) / (((4:ℝ)/5 : ℝ) : ℂ) * (((4 : ℝ)/5 : ℝ) : ℂ) = 1
    rw [one_div, ← Complex.ofReal_inv, ← Complex.ofReal_mul, ← Complex.ofReal_one,
      Complex.ofReal_inj]
    norm_num
  · rw [ne_eq, ← Complex.ofReal_one, Complex.ofReal_inj]
    norm_num

/-- One-qubit register in the zero basis state, input for the dyadic gate
divergence. -/
noncomputable def c3Sample : CU :=
  { qubitCount := 1, maxQPower := 2, runningNorm := 1,
    vec := fun i => if i = 0 then 1 else 0 }

/-- C3 counterexample: the qrack.hpp dyadic gates lack the factor of two, so
Register::RXDyad(1, 1, q) applies RX(-pi), not RX(-2 pi) as the claim
demands; on the basis state the two results differ at amplitude 0. -/
theorem C3_cex_register_dyad_angle :
    RXDyadHpp 1 1 0 c3Sample ≠
      RX (-(2 * Real.pi * ((1:ℤ) : ℝ)) / (((1:ℤ)) : ℝ)) 0 c3Sample := by
  intro h
  have h0 := congrArg (fun z => CU.vec z 0) h
  simp only [RXDyadHpp, RX, ApplySingleBit, UpdateRunningNorm] at h0
  norm_num [applySingleVec_one, c3Sample, Complex.mk_eq_add_mul_I] at h0
  rw [show (-(Real.pi : ℂ) / 2) = ((-(Real.pi / 2) : ℝ) : ℂ) by push_cast; ring] at h0
  rw [show (-(2 * (Real.pi : ℂ)) / 2) = (((-Real.pi : ℝ)) : ℂ) by push_cast; ring] at h0
  rw [← Complex.ofReal_cos, ← Complex.ofReal_cos, Complex.ofReal_inj] at h0
  rw [Real.cos_neg, Real.cos_neg, Real.cos_pi_div_two, Real.cos_pi] at h0
  norm_num at h0

/-- C3 (amended): the CoherentUnit dyadic rotations apply the radian gate at
angle -pi times numerator times 2 over denominator (R1Dyad with the positive
sign), while the header-only Register dyadic rotations use the same
conventions without the factor of two. -/
theorem C3_dyadic_rotation_angles :
    (∀ (num den : ℤ) (q : ℕ) (s : CU),
      RXDyadOcl num den q s = RX (-(2 * Real.pi * (num : ℝ)) / (den : ℝ)) q s
      ∧ RYDyadOcl num den q s = RY (-(2 * Real.pi * (num : ℝ)) / (den : ℝ)) q s
      ∧ RZDyadOcl num den q s = RZ (-(2 * Real.pi * (num : ℝ)) / (den : ℝ)) q s
      ∧ R1DyadOcl num den q s = R1ocl ((2 * Real.pi * (num : ℝ)) / (den : ℝ)) q s)
    ∧ (∀ (num den : ℤ) (q : ℕ) (s : CU),
      RXDyadHpp num den q s = RX (-(Real.pi * (num : ℝ)) / (den : ℝ)) q s
      ∧ RYDyadHpp num den q s = RY (-(Real.pi * (num : ℝ)) / (den : ℝ)) q s
      ∧ RZDyadHpp num den q s = RZ (-(Real.pi * (num : ℝ)) / (den : ℝ)) q s
      ∧ R1DyadHpp num den q s = R1hpp ((Real.pi * (num : ℝ)) / (den : ℝ)) q s) := by
  constructor <;> intro num den q s <;>
    refine ⟨?_, ?_, ?_, ?_⟩ <;>
    simp only [RXDyadOcl, RYDyadOcl, RZDyadOcl, R1DyadOcl,
      RXDyadHpp, RYDyadHpp, RZDyadHpp, R1DyadHpp] <;>
    congr 1 <;> ring

/-- The normalization guard is idempotent: after one application the cached
norm is 1 and the guard does nothing more. -/
theorem preNorm_idem (s : CU) : preNorm (preNorm s) = preNorm s := by
  by_cases h : s.runningNorm = 1
  · simp only [preNorm_of_one s h]
  · have h1 : (preNorm s).runningNorm = 1 := by
      simp [preNorm, h, NormalizeState]
    exact preNorm_of_one _ h1

/-- When the cached norm agrees with the true norm and the state is not the
zero vector, the vector surviving the normalization guard has unit square
sum. -/
theorem preNorm_unit_norm (s : CU) (hrn : s.runningNorm = Real.sqrt (normSqSum s))
    (hpos : 0 < normSqSum s) : normSqSum (preNorm s) = 1 := by
  by_cases h : s.runningNorm = 1
  · rw [preNorm_of_one s h]
    have hs : Real.sqrt (normSqSum s) = 1 := by rw [← hrn, h]
    have := Real.sqrt_eq_one.mp hs
    linarith
  · have hne : preNorm s = NormalizeState s := by simp [preNorm, h]
    rw [hne]
    have hdiv : normSqSum (NormalizeState s) =
        normSqSum s / (s.runningNorm * s.runningNorm) := by
      simp only [normSqSum, NormalizeState, Complex.normSq_div, Complex.normSq_ofReal]
      rw [← Finset.sum_div]
    rw [hdiv, hrn, Real.mul_self_sqrt hpos.le]
    exact div_self (ne_of_gt hpos)

/-- One-qubit register holding amplitude 3/5 at index 1 with a correctly
cached but non-unit running norm 3/5; MAll reads it without normalizing. -/
noncomputable def mallSample : CU :=
  { qubitCount := 1, maxQPower := 2, runningNorm := 3/5,
    vec := fun i => if i = 1 then (((3 : ℝ)/5 : ℝ) : ℂ) else 0 }

/-- C2 counterexample: Register::MAll consumes the raw amplitude vector:
on a state with correctly cached norm 3/5 and true one-probability 1, MAll
with u = 1/2 answers false, while the same call on the eagerly normalized
state answers true.  MAll performs no normalization guard. -/
theorem C2_cex_MAll_skips_normalization :
    mallSample.runningNorm ≠ 1
    ∧ mallSample.runningNorm = Real.sqrt (normSqSum mallSample)
    ∧ (MAll 1 (1/2) 0 mallSample).2 = false
    ∧ (MAll 1 (1/2) 0 (preNorm mallSample)).2 = true := by
  have hsum : normSqSum mallSample = 9/25 := by
    rw [normSqSum]
    show (∑ i in Finset.range 2, Complex.normSq (mallSample.vec i)) = 9/25
    rw [Finset.sum_range_succ, Finset.sum_range_one]
    show Complex.normSq (if (0:ℕ) = 1 then (((3 : ℝ)/5 : ℝ) : ℂ) else 0) +
      Complex.normSq (if (1:ℕ) = 1 then (((3 : ℝ)/5 : ℝ) : ℂ) else 0) = 9/25
    rw [if_neg (by decide), if_pos rfl, Complex.normSq_ofReal]
    simp
    norm_num
  refine ⟨by norm_num [mallSample], ?_, ?_, ?_⟩
  · rw [hsum, show (9/25 : ℝ) = ((3:ℝ)/5) ^ 2 by norm_num,
      Real.sqrt_sq (by norm_num)]
    rfl
  · have hv : Complex.normSq (mallSample.vec 1) = 9/25 := by
      show Complex.normSq (if (1:ℕ) = 1 then (((3 : ℝ)/5 : ℝ) : ℂ) else 0) = 9/25
      rw [if_pos rfl, Complex.normSq_ofReal]
      norm_num
    have hc : decide ((1:ℝ)/2 < Complex.normSq (mallSample.vec 1)) = false := by
      rw [hv]
      simp only [decide_eq_false_iff_not]
      norm_num
    simp only [MAll, hc]
    rfl
  · have hv1 : (preNorm mallSample).vec 1 = 1 := by
      have hne : preNorm mallSample = NormalizeState mallSample := by
        have hr : mallSample.runningNorm ≠ 1 := by norm_num [mallSample]
        simp [preNorm, hr]
      rw [hne]
      show mallSample.vec 1 / ((mallSample.runningNorm : ℝ) : ℂ) = 1
      show (if (1:ℕ) = 1 then (((3 : ℝ)/5 : ℝ) : ℂ) else 0) / (((3:ℝ)/5 : ℝ) : ℂ) = 1
      rw [if_pos rfl]
      exact div_self (Complex.ofReal_ne_zero.mpr (by norm_num))
    have hc : decide ((1:ℝ)/2 < Complex.normSq ((preNorm mallSample).vec 1)) = true := by
      rw [hv1]
      simp only [Complex.normSq_one, decide_eq_true_eq]
      norm_num
    simp only [MAll, hc]
    rfl

/-- C2 (amended): Prob, ProbAll, ProbArray, M, CloneRawState, Cohere (on
both operands), Decohere and Dispose all open with the normalization guard,
so they compute from the eagerly normalized state, and whenever the cached
norm agrees with the true norm of a nonzero vector the vector they consume
has unit square sum; Register::MAll is the exception and reads the raw
amplitudes. -/
theorem C2_normalization_guard :
    (∀ q s, Prob q s = Prob q (preNorm s))
    ∧ (∀ p s, ProbAll p s = ProbAll p (preNorm s))
    ∧ (∀ s, ProbArray s = ProbArray (preNorm s))
    ∧ (∀ q u θ s, Mgate q u θ s = Mgate q u θ (preNorm s))
    ∧ (∀ s, CloneRawState s = CloneRawState (preNorm s))
    ∧ (∀ θ s t, Cohere θ s t = Cohere θ (preNorm s) t)
    ∧ (∀ θ s t, Cohere θ s t = Cohere θ s (preNorm t))
    ∧ (∀ start length θ1 θ2 s dest,
        Decohere start length θ1 θ2 s dest = Decohere start length θ1 θ2 (preNorm s) dest)
    ∧ (∀ start length θ s, Dispose start length θ s = Dispose start length θ (preNorm s))
    ∧ (∀ s, s.runningNorm = Real.sqrt (normSqSum s) → 0 < normSqSum s →
        normSqSum (preNorm s) = 1) := by
  refine ⟨?_, ?_, ?_, ?_, ?_, ?_, ?_, ?_, ?_, ?_⟩
  · intro q s; simp only [Prob, preNorm_idem]
  · intro p s; simp only [ProbAll, preNorm_idem]
  · intro s; simp only [ProbArray, preNorm_idem]
  · intro q u θ s; simp only [Mgate, preNorm_idem]
  · intro s; simp only [CloneRawState, preNorm_idem]
  · intro θ s t; simp only [Cohere, preNorm_idem]
  · intro θ s t; simp only [Cohere, preNorm_idem]
  · intro start length θ1 θ2 s dest; simp only [Decohere, preNorm_idem]
  · intro start length θ s; simp only [Dispose, preNorm_idem]
  · exact fun s h1 h2 => preNorm_unit_norm s h1 h2

/-- Witness for C2 at the normalized sample state: the Prob guard is
transparent and the consumed vector has unit square sum. -/
theorem C2_normalization_guard_witness :
    Prob 0 mSample = Prob 0 (preNorm mSample) ∧ normSqSum (preNorm mSample) = 1 := by
  have hsum : normSqSum mSample = 1 := by
    rw [normSqSum]
    show (∑ i in Finset.range 2, Complex.normSq (mSample.vec i)) = 1
    rw [Finset.sum_range_succ, Finset.sum_range_one]
    show Complex.normSq (if (0:ℕ) = 1 then (((4 : ℝ)/5 : ℝ) : ℂ) else (((3 : ℝ)/5 : ℝ) : ℂ)) +
      Complex.normSq (if (1:ℕ) = 1 then (((4 : ℝ)/5 : ℝ) : ℂ) else (((3 : ℝ)/5 : ℝ) : ℂ)) = 1
    rw [if_neg (by decide), if_pos rfl, Complex.normSq_ofReal, Complex.normSq_ofReal]
    norm_num
  exact ⟨C2_normalization_guard.1 0 mSample,
    C2_normalization_guard.2.2.2.2.2.2.2.2.2 mSample
      (by rw [hsum, Real.sqrt_one]; rfl) (by rw [hsum]; norm_num)⟩

/-- The normalization guard does not change the qubit count. -/
theorem preNorm_qubitCount (s : CU) : (preNorm s).qubitCount = s.qubitCount := by
  by_cases h : s.runningNorm = 1 <;> simp [preNorm, h, NormalizeState]

/-- The normalization guard does not change the vector length. -/
theorem preNorm_maxQPower (s : CU) : (preNorm s).maxQPower = s.maxQPower := by
  by_cases h : s.runningNorm = 1 <;> simp [preNorm, h, NormalizeState]

/-- The accumulation loop over bit weights below n builds the mask
2 ^ n - 1. -/
theorem sum_two_pow_range (n : ℕ) : (∑ i in Finset.range n, 2 ^ i) = 2 ^ n - 1 := by
  induction n with
  | zero => simp
  | succ m ih =>
    rw [Finset.sum_range_succ, ih]
    have h1 : 1 ≤ 2 ^ m := Nat.one_le_two_pow
    have h2 : 2 ^ (m + 1) = 2 ^ m + 2 ^ m := by ring
    omega

/-- The accumulation loop over bit weights in [a, b) builds the mask
2 ^ b - 2 ^ a. -/
theorem sum_two_pow_Ico (a b : ℕ) (h : a ≤ b) :
    (∑ i in Finset.Ico a b, 2 ^ i) = 2 ^ b - 2 ^ a := by
  have hsplit : (∑ i in Finset.range a, 2 ^ i) + (∑ i in Finset.Ico a b, 2 ^ i) =
      ∑ i in Finset.range b, 2 ^ i := Finset.sum_range_add_sum_Ico _ h
  rw [sum_two_pow_range, sum_two_pow_range] at hsplit
  have h1 : 1 ≤ 2 ^ a := Nat.one_le_two_pow
  have h2 : (2:ℕ) ^ a ≤ 2 ^ b := Nat.pow_le_pow_right (by norm_num) h
  omega

/-- C7: Cohere normalizes both registers, sets the qubit count to the sum
and the vector length to 2 to that power, fills every entry i of the new
vector with e^(i theta) times the square root of the product of the squared
norms of the normalized operand amplitudes selected by startMask =
2^qubit_count - 1 and endMask = 2^nQ - 1 - startMask, and leaves the read
register unchanged except for its normalization guard. -/
theorem C7_cohere_product_state (θ : ℝ) (s t : CU) :
    (Cohere θ s t).1.qubitCount = s.qubitCount + t.qubitCount
    ∧ (Cohere θ s t).1.maxQPower = 2 ^ (s.qubitCount + t.qubitCount)
    ∧ (∀ i, (Cohere θ s t).1.vec i =
        (⟨Real.cos θ, Real.sin θ⟩ : ℂ) *
        ((Real.sqrt (Complex.normSq ((preNorm s).vec (i &&& (2 ^ s.qubitCount - 1))) *
          Complex.normSq ((preNorm t).vec
            ((i &&& ((2 ^ (s.qubitCount + t.qubitCount) - 1) - (2 ^ s.qubitCount - 1)))
              >>> s.qubitCount))) : ℝ) : ℂ))
    ∧ (Cohere θ s t).2 = preNorm t := by
  have hsq := preNorm_qubitCount s
  have htq := preNorm_qubitCount t
  have hstart : (∑ i in Finset.range (preNorm s).qubitCount, 2 ^ i) =
      2 ^ s.qubitCount - 1 := by
    rw [hsq, sum_two_pow_range]
  have hend : (∑ i in Finset.Ico (preNorm s).qubitCount
      ((preNorm s).qubitCount + (preNorm t).qubitCount), 2 ^ i) =
      (2 ^ (s.qubitCount + t.qubitCount) - 1) - (2 ^ s.qubitCount - 1) := by
    rw [sum_two_pow_Ico _ _ (Nat.le_add_right _ _), hsq, htq]
    have h1 : 1 ≤ 2 ^ s.qubitCount := Nat.one_le_two_pow
    have h2 : (2:ℕ) ^ s.qubitCount ≤ 2 ^ (s.qubitCount + t.qubitCount) :=
      Nat.pow_le_pow_right (by norm_num) (Nat.le_add_right _ _)
    omega
  refine ⟨?_, ?_, ?_, rfl⟩
  · show (preNorm s).qubitCount + (preNorm t).qubitCount = _
    rw [hsq, htq]
  · show 2 ^ ((preNorm s).qubitCount + (preNorm t).qubitCount) = _
    rw [hsq, htq]
  · intro i
    show (⟨Real.cos θ, Real.sin θ⟩ : ℂ) *
        ((Real.sqrt (Complex.normSq ((preNorm s).vec
            (i &&& ∑ i in Finset.range (preNorm s).qubitCount, 2 ^ i)) *
          Complex.normSq ((preNorm t).vec
            ((i &&& ∑ i in Finset.Ico (preNorm s).qubitCount
                ((preNorm s).qubitCount + (preNorm t).qubitCount), 2 ^ i)
              >>> (preNorm s).qubitCount))) : ℝ) : ℂ) = _
    rw [hstart, hend, hsq]

/-- Peeling the last write off a scatter. -/
theorem scatterVec_succ (K : ℕ) (src : ℕ → ℂ) (destFn : ℕ → ℕ) (init : ℕ → ℂ) :
    scatterVec (K + 1) src destFn init =
      Function.update (scatterVec K src destFn init) (destFn K) (src K) := by
  simp [scatterVec, List.range_succ]

/-- A scatter whose destinations are pairwise distinct places every source
amplitude at its destination. -/
theorem scatterVec_apply (src : ℕ → ℂ) (destFn : ℕ → ℕ) (init : ℕ → ℂ) (K : ℕ)
    (hinj : ∀ a, a < K → ∀ b, b < K → destFn a = destFn b → a = b)
    (k : ℕ) (hk : k < K) :
    scatterVec K src destFn init (destFn k) = src k := by
  induction K with
  | zero => omega
  | succ n ih =>
    rw [scatterVec_succ]
    by_cases h : k = n
    · subst h
      simp [Function.update]
    · have hkn : k < n := by omega
      have hne : destFn k ≠ destFn n := fun he =>
        h (hinj k (by omega) n (by omega) he)
      rw [Function.update_noteq hne]
      exact ih (fun a ha b hb => hinj a (by omega) b (by omega)) hkn

/-- The accumulation loop over bit weights [start, start+length) builds the
shifted mask (2 ^ length - 1) * 2 ^ start. -/
theorem sum_two_pow_range_shift (start length : ℕ) :
    (∑ i in Finset.range length, 2 ^ (start + i)) = (2 ^ length - 1) * 2 ^ start := by
  have hc : ∀ i ∈ Finset.range length, (2:ℕ) ^ (start + i) = 2 ^ i * 2 ^ start :=
    fun i _ => by rw [pow_add]; ring
  rw [Finset.sum_congr rfl hc, ← Finset.sum_mul, sum_two_pow_range]

/-- Bit j of the shifted range mask is set exactly for j in
[start, start+length). -/
theorem testBit_shifted_mask (start length j : ℕ) :
    Nat.testBit ((2 ^ length - 1) * 2 ^ start) j
      = decide (start ≤ j ∧ j < start + length) := by
  have h0 : ((2:ℕ) ^ length - 1) * 2 ^ start = 2 ^ start * (2 ^ length - 1) + 0 := by
    ring
  rw [h0, Nat.testBit_mul_pow_two_add _ (Nat.pos_pow_of_pos start (by norm_num)) j]
  by_cases hj : j < start
  · simp only [if_pos hj, Nat.zero_testBit]
    symm
    simp only [decide_eq_false_iff_not]
    omega
  · simp only [if_neg hj, Nat.testBit_two_pow_sub_one]
    simp only [decide_eq_decide]
    omega

/-- The register complement of the shifted range mask, written as a
high-bits block plus a low-bits block. -/
theorem otherMask_eq (n start length : ℕ) (h : start + length ≤ n) :
    (2 ^ n - 1) - (2 ^ length - 1) * 2 ^ start
      = (2 ^ (n - (start + length)) - 1) * (2 ^ length * 2 ^ start) + (2 ^ start - 1) := by
  have e1 : (2:ℕ) ^ n = 2 ^ (n - (start + length)) * (2 ^ length * 2 ^ start) := by
    rw [← pow_add, ← pow_add]
    congr 1
    omega
  rw [e1, Nat.sub_mul, Nat.sub_mul, one_mul, one_mul]
  have hB : 1 ≤ (2:ℕ) ^ length := Nat.one_le_two_pow
  have hC : 1 ≤ (2:ℕ) ^ start := Nat.one_le_two_pow
  have h1 : (2:ℕ) ^ start ≤ 2 ^ length * 2 ^ start :=
    Nat.le_mul_of_pos_left _ (by omega)
  have h2 : (2:ℕ) ^ length * 2 ^ start ≤
      2 ^ (n - (start + length)) * (2 ^ length * 2 ^ start) :=
    Nat.le_mul_of_pos_left _ (Nat.pos_pow_of_pos _ (by norm_num))
  omega

/-- Bit j of the register complement of the shifted range mask. -/
theorem testBit_other_mask (n start length j : ℕ) (h : start + length ≤ n) :
    Nat.testBit ((2 ^ n - 1) - (2 ^ length - 1) * 2 ^ start) j
      = decide (j < n ∧ ¬(start ≤ j ∧ j < start + length)) := by
  rw [otherMask_eq n start length h,
    show (2:ℕ) ^ length * 2 ^ start = 2 ^ (start + length) by rw [pow_add]; ring,
    show ((2:ℕ) ^ (n - (start + length)) - 1) * 2 ^ (start + length)
      = 2 ^ (start + length) * (2 ^ (n - (start + length)) - 1) by ring]
  have hblt : (2:ℕ) ^ start - 1 < 2 ^ (start + length) := by
    have ha : (2:ℕ) ^ start ≤ 2 ^ (start + length) :=
      Nat.pow_le_pow_right (by norm_num) (by omega)
    have hb : 1 ≤ (2:ℕ) ^ start := Nat.one_le_two_pow
    omega
  rw [Nat.testBit_mul_pow_two_add _ hblt j]
  by_cases hj : j < start + length
  · simp only [if_pos hj, Nat.testBit_two_pow_sub_one, decide_eq_decide]
    omega
  · simp only [if_neg hj, Nat.testBit_two_pow_sub_one, decide_eq_decide]
    omega

/-- The destination map of the range-broadcast X body is xor with the range
mask, on every index inside the register. -/
theorem xRangeDest_eq_xor (n start length lcv : ℕ) (hn : n ≤ 64)
    (hsl : start + length ≤ n) (hlcv : lcv < 2 ^ n) :
    xRangeDest ((2 ^ length - 1) * 2 ^ start)
      ((2 ^ n - 1) - (2 ^ length - 1) * 2 ^ start) lcv
      = lcv ^^^ (2 ^ length - 1) * 2 ^ start := by
  apply Nat.eq_of_testBit_eq
  intro j
  have htb64 : Nat.testBit (2 ^ 64 - 1) j = decide (j < 64) :=
    Nat.testBit_two_pow_sub_one 64 j
  have hout : ∀ k, n ≤ k → Nat.testBit lcv k = false := fun k hk =>
    Nat.testBit_lt_two_pow
      (lt_of_lt_of_le hlcv (Nat.pow_le_pow_right (by norm_num) hk))
  simp only [xRangeDest, Nat.testBit_lor, Nat.testBit_land, Nat.testBit_xor,
    htb64, testBit_shifted_mask, testBit_other_mask n start length j hsl]
  by_cases h1 : start ≤ j ∧ j < start + length
  · have hj64 : j < 64 := by omega
    have hjn : ¬(j < n ∧ ¬(start ≤ j ∧ j < start + length)) := by tauto
    simp [h1, hj64, hjn]
  · by_cases h2 : j < n
    · have : (j < n ∧ ¬(start ≤ j ∧ j < start + length)) := by tauto
      simp [h1, this]
    · have hl : Nat.testBit lcv j = false := hout j (by omega)
      have : ¬(j < n ∧ ¬(start ≤ j ∧ j < start + length)) := by tauto
      simp [h1, this, hl]

/-- C10: the range-broadcast X scatters the amplitude at each register index
i to the index obtained by complementing exactly the bits in positions
[start, start+length) (the xor mask has exactly those bits set), and doing
it twice restores every register amplitude. -/
theorem C10_range_X_is_bit_complement (s : CU) (start length : ℕ)
    (junk1 junk2 : ℕ → ℂ) (hmax : s.maxQPower = 2 ^ s.qubitCount)
    (hn : s.qubitCount ≤ 64) (hsl : start + length ≤ s.qubitCount) :
    (∀ j, Nat.testBit (∑ k in Finset.range length, 2 ^ (start + k)) j
        = decide (start ≤ j ∧ j < start + length))
    ∧ (∀ i, i < 2 ^ s.qubitCount →
        (Xrange start length junk1 s).vec
          (i ^^^ ∑ k in Finset.range length, 2 ^ (start + k)) = s.vec i)
    ∧ (∀ j, j < 2 ^ s.qubitCount →
        (Xrange start length junk2 (Xrange start length junk1 s)).vec j = s.vec j) := by
  set n := s.qubitCount with hndef
  set m := (2 ^ length - 1) * 2 ^ start with hmdef
  have hsum : (∑ k in Finset.range length, 2 ^ (start + k)) = m :=
    sum_two_pow_range_shift start length
  have hmlt : m < 2 ^ n := by
    have h1 : m + 2 ^ start = 2 ^ (start + length) := by
      rw [hmdef, Nat.sub_mul, one_mul, pow_add]
      have : (2:ℕ) ^ start ≤ 2 ^ start * 2 ^ length :=
        Nat.le_mul_of_pos_right _ (Nat.pos_pow_of_pos _ (by norm_num))
      have hc : (2:ℕ) ^ start * 2 ^ length = 2 ^ length * 2 ^ start := by ring
      omega
    have h2 : (2:ℕ) ^ (start + length) ≤ 2 ^ n :=
      Nat.pow_le_pow_right (by norm_num) hsl
    have h3 : 1 ≤ (2:ℕ) ^ start := Nat.one_le_two_pow
    omega
  have hdest : ∀ i, i < 2 ^ n →
      xRangeDest m ((2 ^ n - 1) - m) i = i ^^^ m := fun i hi =>
    xRangeDest_eq_xor n start length i hn hsl hi
  have hinj : ∀ a, a < 2 ^ n → ∀ b, b < 2 ^ n →
      xRangeDest m ((2 ^ n - 1) - m) a = xRangeDest m ((2 ^ n - 1) - m) b → a = b := by
    intro a ha b hb he
    rw [hdest a ha, hdest b hb] at he
    have := congrArg (fun x => x ^^^ m) he
    simpa [Nat.xor_assoc] using this
  have hone : ∀ (junk : ℕ → ℂ) (t : CU), t.maxQPower = 2 ^ n → t.qubitCount = n →
      ∀ i, i < 2 ^ n → (Xrange start length junk t).vec (i ^^^ m) = t.vec i := by
    intro junk t hmx hq i hi
    show scatterVec t.maxQPower t.vec
      (xRangeDest (∑ k in Finset.range length, 2 ^ (start + k))
        ((2 ^ t.qubitCount - 1) - ∑ k in Finset.range length, 2 ^ (start + k))) junk
      (i ^^^ m) = t.vec i
    rw [hsum, hq, hmx, ← hdest i hi]
    exact scatterVec_apply t.vec _ junk (2 ^ n) hinj i hi
  refine ⟨fun j => by rw [hsum, testBit_shifted_mask], ?_, ?_⟩
  · intro i hi
    rw [hsum]
    exact hone junk1 s hmax rfl i hi
  · intro j hj
    have hxm : j ^^^ m < 2 ^ n := Nat.xor_lt_two_pow hj hmlt
    have hx1 : (Xrange start length junk1 s).maxQPower = 2 ^ n := hmax
    have hx2 : (Xrange start length junk1 s).qubitCount = n := rfl
    have houter := hone junk2 (Xrange start length junk1 s) hx1 hx2 (j ^^^ m) hxm
    rw [show (j ^^^ m) ^^^ m = j by
      rw [Nat.xor_assoc, Nat.xor_self, Nat.xor_zero]] at houter
    rw [houter]
    have hinner := hone junk1 s hmax rfl j hj
    rw [show j ^^^ m = j ^^^ m from rfl] at hinner
    exact hinner

/-- Witness for C10 on the two-qubit basis state |1> with start = 0,
length = 1: complementing bit 0 twice restores the amplitude. -/
theorem C10_range_X_is_bit_complement_witness :
    (Xrange 0 1 (fun _ => 0) (Xrange 0 1 (fun _ => 0) rotSample)).vec 1 = rotSample.vec 1
    ∧ rotSample.vec 1 = 1 :=
  ⟨(C10_range_X_is_bit_complement rotSample 0 1 (fun _ => 0) (fun _ => 0) rfl
      (show (2:ℕ) ≤ 64 by norm_num) (show 0 + 1 ≤ (2:ℕ) by norm_num)).2.2 1
      (show (1:ℕ) < 2 ^ 2 by norm_num),
   by simp [rotSample]⟩

/-- Unfolded form of the bitCount = 1 index expansion. -/
theorem expandBit_eq (p k : ℕ) : expandBit p k = k % p + 2 * (p * (k / p)) := by
  rw [expandBit]
  have h := Nat.mod_add_div k p
  omega

/-- Every index splits into its bits below the pair bit, the pair bit and
the bits above it. -/
theorem pair_decomp (p j : ℕ) (hp : 0 < p) :
    j = j % p + p * (j / p % 2) + 2 * (p * (j / (2 * p))) := by
  have h1 : j % (2 * p) % p = j % p := Nat.mod_mod_of_dvd j ⟨2, by ring⟩
  have h2 : j % (2 * p) / p = j / p % 2 := by
    rw [mul_comm 2 p, Nat.mod_mul_right_div_self]
  have h3 := Nat.mod_add_div (j % (2 * p)) p
  have h4 := Nat.mod_add_div j (2 * p)
  rw [h1, h2] at h3
  have h5 : 2 * (p * (j / (2 * p))) = 2 * p * (j / (2 * p)) := by ring
  omega

/-- Division of a pair-decomposed index by the pair power. -/
theorem pair_div (p A r D : ℕ) (hp : 0 < p) (hA : A < p) :
    (A + p * r + 2 * (p * D)) / p = r + 2 * D := by
  rw [show A + p * r + 2 * (p * D) = A + p * (r + 2 * D) by ring,
    Nat.add_mul_div_left _ _ hp, Nat.div_eq_of_lt hA, Nat.zero_add]

/-- Remainder of a pair-decomposed index by the pair power. -/
theorem pair_mod (p A r D : ℕ) (hp : 0 < p) (hA : A < p) :
    (A + p * r + 2 * (p * D)) % p = A := by
  rw [show A + p * r + 2 * (p * D) = A + p * (r + 2 * D) by ring,
    Nat.add_mul_mod_self_left, Nat.mod_eq_of_lt hA]

/-- Division of a pair-decomposed index by twice the pair power. -/
theorem pair_div2 (p A r D : ℕ) (hp : 0 < p) (hA : A < p) (hr : r < 2) :
    (A + p * r + 2 * (p * D)) / (2 * p) = D := by
  have hpr : p * r ≤ p * 1 := Nat.mul_le_mul_left p (by omega)
  have hlt : A + p * r < 2 * p := by omega
  rw [show A + p * r + 2 * (p * D) = (A + p * r) + (2 * p) * D by ring,
    Nat.add_mul_div_left _ _ (by omega), Nat.div_eq_of_lt hlt, Nat.zero_add]

/-- Compressed counter and parities of the two expanded pair slots. -/
theorem expandBit_base (p k : ℕ) (hp : 0 < p) :
    expandBit p k % p + p * (expandBit p k / (2 * p)) = k
    ∧ (expandBit p k + p) % p + p * ((expandBit p k + p) / (2 * p)) = k
    ∧ expandBit p k / p % 2 = 0
    ∧ (expandBit p k + p) / p % 2 = 1 := by
  have hA : k % p < p := Nat.mod_lt _ hp
  have he : expandBit p k = k % p + p * 0 + 2 * (p * (k / p)) := by
    rw [expandBit_eq]; ring
  have hep : expandBit p k + p = k % p + p * 1 + 2 * (p * (k / p)) := by
    rw [expandBit_eq]; ring
  refine ⟨?_, ?_, ?_, ?_⟩
  · rw [he, pair_mod p _ _ _ hp hA, pair_div2 p _ _ _ hp hA (by omega)]
    exact Nat.mod_add_div k p
  · rw [hep, pair_mod p _ _ _ hp hA, pair_div2 p _ _ _ hp hA (by omega)]
    exact Nat.mod_add_div k p
  · rw [he, pair_div p _ _ _ hp hA]
    omega
  · rw [hep, pair_div p _ _ _ hp hA]
    omega

/-- An index whose compressed counter is k is one of the two pair slots of
k, selected by its parity at the pair bit. -/
theorem base_reconstruct (p j k : ℕ) (hp : 0 < p)
    (hb : j % p + p * (j / (2 * p)) = k) :
    (j / p % 2 = 0 → j = expandBit p k) ∧ (j / p % 2 = 1 → j = expandBit p k + p) := by
  have hA : j % p < p := Nat.mod_lt _ hp
  have hd := pair_decomp p j hp
  have hkm : k % p = j % p := by
    rw [← hb, Nat.add_mul_mod_self_left, Nat.mod_eq_of_lt hA]
  have hkd : k / p = j / (2 * p) := by
    rw [← hb, Nat.add_mul_div_left _ _ hp, Nat.div_eq_of_lt hA, Nat.zero_add]
  have he : expandBit p k = j % p + 2 * (p * (j / (2 * p))) := by
    rw [expandBit_eq, hkm, hkd]
  constructor <;> intro hr <;> rw [hr] at hd <;> omega

/-- Bound on the compressed counter of a register index. -/
theorem base_lt (p M2 j : ℕ) (hp : 0 < p) (hM2 : 0 < M2) (hj : j < 2 * (p * M2)) :
    j % p + p * (j / (2 * p)) < p * M2 := by
  have hA : j % p < p := Nat.mod_lt _ hp
  have hD : j / (2 * p) < M2 := by
    rw [Nat.div_lt_iff_lt_mul (by omega)]
    have hc : M2 * (2 * p) = 2 * (p * M2) := by ring
    omega
  have hDm : p * (j / (2 * p)) ≤ p * (M2 - 1) := Nat.mul_le_mul_left p (by omega)
  have hsub : p * (M2 - 1) + p = p * M2 := by
    have h1 : p * (M2 - 1) + p * 1 = p * ((M2 - 1) + 1) := by rw [← Nat.mul_add]
    rw [mul_one] at h1
    rw [h1]
    congr 1
    omega
  omega

/-- Pointwise characterization of the apply2x2 kernel fold for bitCount = 1:
after K strides, exactly the pairs expanded from counters below K are
transformed. -/
theorem applySingleVec_fold (p : ℕ) (hp : 0 < p) (m0 m1 m2 m3 nrm : ℂ)
    (v : ℕ → ℂ) (K : ℕ) :
    ∀ j, ((List.range K).foldl
        (fun buf k => gateStep p m0 m1 m2 m3 nrm (expandBit p k) buf) v) j
      = if j % p + p * (j / (2 * p)) < K then
          (if j / p % 2 = 1 then nrm * (m0 * v j + m1 * v (j - p))
           else nrm * (m2 * v (j + p) + m3 * v j))
        else v j := by
  induction K with
  | zero =>
    intro j
    simp
  | succ K ih =>
    intro j
    rw [List.range_succ, List.foldl_append, List.foldl_cons, List.foldl_nil]
    set w := (List.range K).foldl
      (fun buf k => gateStep p m0 m1 m2 m3 nrm (expandBit p k) buf) v with hw
    obtain ⟨hb1, hb2, hpar0, hpar1⟩ := expandBit_base p K hp
    have hepne : expandBit p K ≠ expandBit p K + p := by omega
    by_cases hj1 : j = expandBit p K + p
    · subst hj1
      show (if expandBit p K + p = expandBit p K + p then
          nrm * (m0 * w (expandBit p K + p) + m1 * w (expandBit p K))
        else if expandBit p K + p = expandBit p K then
          nrm * (m2 * w (expandBit p K + p) + m3 * w (expandBit p K))
        else w (expandBit p K + p)) = _
      rw [if_pos rfl, ih (expandBit p K + p), ih (expandBit p K), hb2, hb1,
        if_neg (lt_irrefl K), if_neg (lt_irrefl K), if_pos (Nat.lt_succ_self K),
        if_pos hpar1, Nat.add_sub_cancel]
    · by_cases hj2 : j = expandBit p K
      · subst hj2
        show (if expandBit p K = expandBit p K + p then
            nrm * (m0 * w (expandBit p K + p) + m1 * w (expandBit p K))
          else if expandBit p K = expandBit p K then
            nrm * (m2 * w (expandBit p K + p) + m3 * w (expandBit p K))
          else w (expandBit p K)) = _
        rw [if_neg hepne, if_pos rfl, ih (expandBit p K + p), ih (expandBit p K),
          hb2, hb1, if_neg (lt_irrefl K), if_neg (lt_irrefl K),
          if_pos (Nat.lt_succ_self K), if_neg (by omega : ¬(expandBit p K / p % 2 = 1))]
      · show (if j = expandBit p K + p then
            nrm * (m0 * w (expandBit p K + p) + m1 * w (expandBit p K))
          else if j = expandBit p K then
            nrm * (m2 * w (expandBit p K + p) + m3 * w (expandBit p K))
          else w j) = _
        rw [if_neg hj1, if_neg hj2, ih j]
        by_cases hbK : j % p + p * (j / (2 * p)) < K
        · rw [if_pos hbK,
            if_pos (show j % p + p * (j / (2 * p)) < K + 1 from by omega)]
        · rw [if_neg hbK]
          have hne : j % p + p * (j / (2 * p)) ≠ K := by
            intro he
            obtain ⟨h0, h1⟩ := base_reconstruct p j K hp he
            rcases Nat.mod_two_eq_zero_or_one (j / p) with hr | hr
            · exact hj2 (h0 hr)
            · exact hj1 (h1 hr)
          rw [if_neg (show ¬(j % p + p * (j / (2 * p)) < K + 1) from by omega)]

/-- Pointwise action of the apply2x2 kernel for a single qubit bit on a
register of n qubits. -/
theorem applySingleVec_eq (q n : ℕ) (hqn : q < n) (m0 m1 m2 m3 nrm : ℂ)
    (v : ℕ → ℂ) (j : ℕ) (hj : j < 2 ^ n) :
    applySingleVec q m0 m1 m2 m3 nrm (2 ^ n) v j
      = if j / 2 ^ q % 2 = 1 then nrm * (m0 * v j + m1 * v (j - 2 ^ q))
        else nrm * (m2 * v (j + 2 ^ q) + m3 * v j) := by
  have hp : 0 < (2:ℕ) ^ q := Nat.pos_pow_of_pos _ (by norm_num)
  have hn1 : (2:ℕ) ^ n = 2 * 2 ^ (n - 1) := by
    rw [← pow_succ']
    congr 1
    omega
  have hshift : (2:ℕ) ^ n >>> 1 = 2 ^ (n - 1) := by
    rw [Nat.shiftRight_eq_div_pow, pow_one]
    omega
  have hM2 : (2:ℕ) ^ (n - 1) = 2 ^ q * 2 ^ (n - 1 - q) := by
    rw [← pow_add]
    congr 1
    omega
  have hbnd : j % 2 ^ q + 2 ^ q * (j / (2 * 2 ^ q)) < 2 ^ (n - 1) := by
    rw [hM2]
    exact base_lt (2 ^ q) (2 ^ (n - 1 - q)) j hp (Nat.pos_pow_of_pos _ (by norm_num))
      (by rw [← hM2, ← hn1]; exact hj)
  rw [applySingleVec, hshift,
    applySingleVec_fold (2 ^ q) hp m0 m1 m2 m3 nrm v (2 ^ (n - 1)) j,
    if_pos hbnd]

/-- The AND mask test against a single bit power reads the set binary
digit. -/
theorem and_two_pow_set (i q : ℕ) : (i &&& 2 ^ q = 2 ^ q) ↔ i / 2 ^ q % 2 = 1 := by
  have h2 : (0:ℕ) < 2 ^ q := Nat.pos_pow_of_pos _ (by norm_num)
  rw [Nat.and_two_pow]
  cases hb : i.testBit q with
  | false =>
    rw [Nat.testBit_to_div_mod, decide_eq_false_iff_not] at hb
    simp only [Bool.toNat_false, Nat.zero_mul]
    exact iff_of_false (by omega) hb
  | true =>
    rw [Nat.testBit_to_div_mod, decide_eq_true_eq] at hb
    simp only [Bool.toNat_true, Nat.one_mul]
    exact iff_of_true trivial hb

/-- The AND mask test against a single bit power vanishing reads the
cleared binary digit. -/
theorem and_two_pow_clear (i q : ℕ) : (i &&& 2 ^ q = 0) ↔ i / 2 ^ q % 2 = 0 := by
  have h2 : (0:ℕ) < 2 ^ q := Nat.pos_pow_of_pos _ (by norm_num)
  rw [Nat.and_two_pow]
  cases hb : i.testBit q with
  | false =>
    rw [Nat.testBit_to_div_mod, decide_eq_false_iff_not] at hb
    simp only [Bool.toNat_false, Nat.zero_mul]
    exact iff_of_true trivial (by omega)
  | true =>
    rw [Nat.testBit_to_div_mod, decide_eq_true_eq] at hb
    simp only [Bool.toNat_true, Nat.one_mul]
    exact iff_of_false (by omega) (by omega)

/-- The random phase factor drawn by the measurement routines has unit
squared norm. -/
theorem normSq_phase (θ : ℝ) : Complex.normSq (⟨Real.cos θ, Real.sin θ⟩ : ℂ) = 1 := by
  rw [Complex.normSq_mk, ← Real.cos_sq_add_sin_sq θ]
  ring

/-- Squared norm of an amplitude scaled by the phase factor over a real
normalizer. -/
theorem normSq_scaled (θ c : ℝ) (z : ℂ) :
    Complex.normSq (((⟨Real.cos θ, Real.sin θ⟩ : ℂ) / ((c : ℝ) : ℂ)) * z)
      = Complex.normSq z / (c * c) := by
  rw [Complex.normSq_mul, Complex.normSq_div, normSq_phase, Complex.normSq_ofReal]
  ring

/-- Field and amplitude characterization of the X gate on a register whose
vector length is a power of two: the amplitudes of each bit pair swap,
scaled by the reciprocal cached norm, and the cached norm is reasserted
to 1. -/
theorem Xgate_eq (q n : ℕ) (hqn : q < n) (s : CU) (hm : s.maxQPower = 2 ^ n) :
    (Xgate q s).qubitCount = s.qubitCount ∧ (Xgate q s).maxQPower = s.maxQPower
    ∧ (Xgate q s).runningNorm = 1
    ∧ ∀ j < 2 ^ n, (Xgate q s).vec j =
        if j / 2 ^ q % 2 = 1 then ((1 / s.runningNorm : ℝ) : ℂ) * s.vec (j - 2 ^ q)
        else ((1 / s.runningNorm : ℝ) : ℂ) * s.vec (j + 2 ^ q) := by
  refine ⟨rfl, rfl, rfl, fun j hj => ?_⟩
  show applySingleVec q 0 1 1 0 ((1 / s.runningNorm : ℝ) : ℂ) s.maxQPower s.vec j = _
  rw [hm, applySingleVec_eq q n hqn 0 1 1 0 _ s.vec j hj]
  by_cases hp : j / 2 ^ q % 2 = 1
  · rw [if_pos hp, if_pos hp]
    ring
  · rw [if_neg hp, if_neg hp]
    ring

/-- With a cached norm of 1 the Prob guard is inert and the mask test reads
the binary digit at the probed bit. -/
theorem Prob_parity (q : ℕ) (s : CU) (h : s.runningNorm = 1) :
    Prob q s = ∑ i in Finset.range s.maxQPower,
      if i / 2 ^ q % 2 = 1 then Complex.normSq (s.vec i) else 0 := by
  have hpre : preNorm s = s := preNorm_of_one s h
  show (∑ i in Finset.range (preNorm s).maxQPower,
      if i &&& 2 ^ q = 2 ^ q then Complex.normSq ((preNorm s).vec i) else 0) = _
  rw [hpre]
  refine Finset.sum_congr rfl fun i _ => ?_
  by_cases hb : i / 2 ^ q % 2 = 1
  · rw [if_pos hb, if_pos ((and_two_pow_set i q).mpr hb)]
  · rw [if_neg hb, if_neg (fun hc => hb ((and_two_pow_set i q).mp hc))]

/-- When the cached norm is the square root of a positive true norm, Prob
computes the mass on the probed bit divided by the true norm. -/
theorem Prob_of_sqrt (q : ℕ) (s : CU) (hrn : s.runningNorm = Real.sqrt (normSqSum s))
    (hpos : 0 < normSqSum s) :
    Prob q s = (∑ i in Finset.range s.maxQPower,
      if i / 2 ^ q % 2 = 1 then Complex.normSq (s.vec i) else 0) / normSqSum s := by
  by_cases h1 : s.runningNorm = 1
  · have hS : normSqSum s = 1 := by
      rw [h1] at hrn
      exact Real.sqrt_eq_one.mp hrn.symm
    rw [Prob_parity q s h1, hS, div_one]
  · have hpre : preNorm s = NormalizeState s := by
      rw [preNorm, if_pos h1]
    show (∑ i in Finset.range (preNorm s).maxQPower,
        if i &&& 2 ^ q = 2 ^ q then Complex.normSq ((preNorm s).vec i) else 0) = _
    rw [hpre]
    show (∑ i in Finset.range s.maxQPower,
        if i &&& 2 ^ q = 2 ^ q
        then Complex.normSq (s.vec i / (s.runningNorm : ℂ)) else 0) = _
    rw [Finset.sum_div]
    refine Finset.sum_congr rfl fun i _ => ?_
    have hn : Complex.normSq (s.vec i / (s.runningNorm : ℂ))
        = Complex.normSq (s.vec i) / normSqSum s := by
      rw [Complex.normSq_div, Complex.normSq_ofReal, hrn,
        Real.mul_self_sqrt hpos.le]
    by_cases hb : i / 2 ^ q % 2 = 1
    · rw [if_pos ((and_two_pow_set i q).mpr hb), if_pos hb, hn]
    · rw [if_neg (fun hc => hb ((and_two_pow_set i q).mp hc)), if_neg hb, zero_div]

/-- A range sum splits into its set-digit and cleared-digit parts at any
bit position. -/
theorem sum_parity_split (M q : ℕ) (a : ℕ → ℝ) :
    ((∑ i in Finset.range M, if i / 2 ^ q % 2 = 1 then a i else 0)
      + ∑ i in Finset.range M, if i / 2 ^ q % 2 = 1 then 0 else a i)
    = ∑ i in Finset.range M, a i := by
  rw [← Finset.sum_add_distrib]
  refine Finset.sum_congr rfl fun i _ => ?_
  by_cases h : i / 2 ^ q % 2 = 1 <;> simp [h]

/-- A register index with the pair digit set sits one pair power above an
index with the digit cleared. -/
theorem parity_down (q a : ℕ) (h : a / 2 ^ q % 2 = 1) :
    2 ^ q ≤ a ∧ (a - 2 ^ q) / 2 ^ q % 2 = 0 ∧ (a - 2 ^ q) + 2 ^ q = a := by
  have hp : (0:ℕ) < 2 ^ q := Nat.pos_pow_of_pos _ (by norm_num)
  have hA : a % 2 ^ q < 2 ^ q := Nat.mod_lt _ hp
  have hd := pair_decomp (2 ^ q) a hp
  rw [h] at hd
  have hle : 2 ^ q ≤ a := by omega
  have hsub : a - 2 ^ q
      = a % 2 ^ q + 2 ^ q * 0 + 2 * (2 ^ q * (a / (2 * 2 ^ q))) := by
    omega
  refine ⟨hle, ?_, by omega⟩
  rw [hsub, pair_div (2 ^ q) _ _ _ hp hA]
  omega

/-- A register index with the pair digit cleared sits one pair power below
an index with the digit set, and the partner stays in range. -/
theorem parity_up (n q a : ℕ) (hqn : q < n) (ha : a < 2 ^ n)
    (h : a / 2 ^ q % 2 = 0) :
    a + 2 ^ q < 2 ^ n ∧ (a + 2 ^ q) / 2 ^ q % 2 = 1 ∧ (a + 2 ^ q) - 2 ^ q = a := by
  have hp : (0:ℕ) < 2 ^ q := Nat.pos_pow_of_pos _ (by norm_num)
  have hA : a % 2 ^ q < 2 ^ q := Nat.mod_lt _ hp
  have hd := pair_decomp (2 ^ q) a hp
  rw [h] at hd
  have hadd : a + 2 ^ q
      = a % 2 ^ q + 2 ^ q * 1 + 2 * (2 ^ q * (a / (2 * 2 ^ q))) := by
    omega
  have h2n : (2:ℕ) ^ n = 2 * (2 ^ q * 2 ^ (n - q - 1)) := by
    rw [show 2 * (2 ^ q * 2 ^ (n - q - 1)) = 2 ^ q * (2 * 2 ^ (n - q - 1)) by ring,
      ← pow_succ' 2 (n - q - 1), ← pow_add]
    congr 1
    omega
  have hD : a / (2 * 2 ^ q) < 2 ^ (n - q - 1) := by
    rw [Nat.div_lt_iff_lt_mul (by omega)]
    have hb : 2 ^ (n - q - 1) * (2 * 2 ^ q) = 2 * (2 ^ q * 2 ^ (n - q - 1)) := by
      ring
    omega
  have hDm : 2 ^ q * (a / (2 * 2 ^ q)) + 2 ^ q ≤ 2 ^ q * 2 ^ (n - q - 1) := by
    have hstep : 2 ^ q * (a / (2 * 2 ^ q) + 1) ≤ 2 ^ q * 2 ^ (n - q - 1) :=
      Nat.mul_le_mul_left _ (by omega)
    have hdist : 2 ^ q * (a / (2 * 2 ^ q) + 1)
        = 2 ^ q * (a / (2 * 2 ^ q)) + 2 ^ q := by ring
    omega
  refine ⟨by omega, ?_, by omega⟩
  rw [hadd, pair_div (2 ^ q) _ _ _ hp hA]
  omega

/-- Summing a function of the lower pair partner over the set-digit indices
equals summing the function itself over the cleared-digit indices. -/
theorem sum_pair_shift (n q : ℕ) (hqn : q < n) (f : ℕ → ℝ) :
    (∑ i in Finset.range (2 ^ n), if i / 2 ^ q % 2 = 1 then f (i - 2 ^ q) else 0)
    = ∑ i in Finset.range (2 ^ n), if i / 2 ^ q % 2 = 1 then 0 else f i := by
  have hL : (∑ i in Finset.range (2 ^ n),
        if i / 2 ^ q % 2 = 1 then f (i - 2 ^ q) else 0)
      = ∑ i in (Finset.range (2 ^ n)).filter (fun i => i / 2 ^ q % 2 = 1),
          f (i - 2 ^ q) := (Finset.sum_filter _ _).symm
  have hR : (∑ i in Finset.range (2 ^ n), if i / 2 ^ q % 2 = 1 then 0 else f i)
      = ∑ i in (Finset.range (2 ^ n)).filter (fun i => ¬ (i / 2 ^ q % 2 = 1)),
          f i := by
    rw [Finset.sum_filter]
    refine Finset.sum_congr rfl fun i _ => ?_
    by_cases h : i / 2 ^ q % 2 = 1 <;> simp [h]
  rw [hL, hR]
  refine Finset.sum_nbij' (fun i => i - 2 ^ q) (fun i => i + 2 ^ q)
    ?_ ?_ ?_ ?_ ?_
  · intro a ha
    simp only [Finset.mem_filter, Finset.mem_range] at ha ⊢
    have hp : (0:ℕ) < 2 ^ q := Nat.pos_pow_of_pos _ (by norm_num)
    obtain ⟨hle, hpar, _⟩ := parity_down q a ha.2
    exact ⟨by omega, by omega⟩
  · intro a ha
    simp only [Finset.mem_filter, Finset.mem_range] at ha ⊢
    have hpar0 : a / 2 ^ q % 2 = 0 := by omega
    obtain ⟨hlt, hpar, _⟩ := parity_up n q a hqn ha.1 hpar0
    exact ⟨hlt, by omega⟩
  · intro a ha
    simp only [Finset.mem_filter, Finset.mem_range] at ha
    obtain ⟨hle, _, hback⟩ := parity_down q a ha.2
    exact hback
  · intro a ha
    simp only [Finset.mem_filter, Finset.mem_range] at ha
    have hpar0 : a / 2 ^ q % 2 = 0 := by omega
    obtain ⟨_, _, hback⟩ := parity_up n q a hqn ha.1 hpar0
    exact hback
  · intro a _
    rfl

/-- Closed form of the measurement routine when the one outcome is drawn:
the cleared-bit amplitudes are zeroed and the survivors are scaled by the
random phase over the (unsquare-rooted) one probability. -/
theorem Mgate_true_eq (q : ℕ) (u θ : ℝ) (s : CU) (h1 : s.runningNorm = 1)
    (hu : u < Prob q s) (hP : 0 < Prob q s) :
    Mgate q u θ s =
      (UpdateRunningNorm { s with vec := fun i => if i &&& 2 ^ q = 0 then 0
          else ((⟨Real.cos θ, Real.sin θ⟩ : ℂ) / ((Prob q s : ℝ) : ℂ)) * s.vec i },
        true) := by
  have hpre : preNorm s = s := preNorm_of_one s h1
  have hres : (decide (u < Prob q s) && decide (0 < Prob q s)) = true := by
    rw [decide_eq_true hu, decide_eq_true hP, Bool.and_self]
  simp only [Mgate, hpre]
  rw [if_pos hres, hres, if_pos hP]

/-- Closed form of the measurement routine when the zero outcome is drawn:
the set-bit amplitudes are zeroed and the survivors are scaled by the
random phase over the square root of the zero probability. -/
theorem Mgate_false_eq (q : ℕ) (u θ : ℝ) (s : CU) (h1 : s.runningNorm = 1)
    (hres : ¬ (u < Prob q s ∧ 0 < Prob q s)) (hP1 : Prob q s < 1) :
    Mgate q u θ s =
      (UpdateRunningNorm { s with vec := fun i => if i &&& 2 ^ q = 0
          then ((⟨Real.cos θ, Real.sin θ⟩ : ℂ)
            / ((Real.sqrt (1 - Prob q s) : ℝ) : ℂ)) * s.vec i else 0 },
        false) := by
  have hpre : preNorm s = s := preNorm_of_one s h1
  have hb : (decide (u < Prob q s) && decide (0 < Prob q s)) = false := by
    rcases Classical.em (u < Prob q s) with h | h
    · rcases Classical.em (0 < Prob q s) with h2 | h2
      · exact absurd ⟨h, h2⟩ hres
      · rw [decide_eq_false h2, Bool.and_false]
    · rw [decide_eq_false h, Bool.false_and]
  have hbne : ¬ ((decide (u < Prob q s) && decide (0 < Prob q s)) = true) := by
    rw [hb]
    exact Bool.false_ne_true
  simp only [Mgate, hpre]
  rw [if_neg hbne, hb, if_pos hP1]

/-- One-qubit register in the computational zero basis state with a correct
cached norm. -/
noncomputable def ket0 : CU :=
  { qubitCount := 1, maxQPower := 2, runningNorm := 1,
    vec := fun i => if i = 0 then 1 else 0 }

/-- One-qubit register in the computational one basis state with a correct
cached norm. -/
noncomputable def ket1 : CU :=
  { qubitCount := 1, maxQPower := 2, runningNorm := 1,
    vec := fun i => if i = 1 then 1 else 0 }

/-- The one-probability of the only qubit of ket0. -/
theorem Prob_ket0 : Prob 0 ket0 = 0 := by
  have hpre : preNorm ket0 = ket0 := preNorm_of_one _ rfl
  show (∑ i in Finset.range (preNorm ket0).maxQPower,
      if i &&& 2 ^ 0 = 2 ^ 0 then Complex.normSq ((preNorm ket0).vec i) else 0) = 0
  rw [hpre]
  show (∑ i in Finset.range 2,
      if i &&& 2 ^ 0 = 2 ^ 0 then Complex.normSq (ket0.vec i) else 0) = 0
  rw [Finset.sum_range_succ, Finset.sum_range_one,
    if_neg (by decide : ¬((0:ℕ) &&& 2 ^ 0 = 2 ^ 0)),
    if_pos (by decide : (1:ℕ) &&& 2 ^ 0 = 2 ^ 0)]
  show 0 + Complex.normSq 0 = 0
  simp

/-- The one-probability of the only qubit of ket1. -/
theorem Prob_ket1 : Prob 0 ket1 = 1 := by
  have hpre : preNorm ket1 = ket1 := preNorm_of_one _ rfl
  show (∑ i in Finset.range (preNorm ket1).maxQPower,
      if i &&& 2 ^ 0 = 2 ^ 0 then Complex.normSq ((preNorm ket1).vec i) else 0) = 1
  rw [hpre]
  show (∑ i in Finset.range 2,
      if i &&& 2 ^ 0 = 2 ^ 0 then Complex.normSq (ket1.vec i) else 0) = 1
  rw [Finset.sum_range_succ, Finset.sum_range_one,
    if_neg (by decide : ¬((0:ℕ) &&& 2 ^ 0 = 2 ^ 0)),
    if_pos (by decide : (1:ℕ) &&& 2 ^ 0 = 2 ^ 0)]
  show 0 + Complex.normSq 1 = 1
  simp

/-- Unfolded form of the X gate: a pair swap scaled by the reciprocal
cached norm, with the cached norm reasserted to 1. -/
theorem Xgate_def (q : ℕ) (s : CU) :
    Xgate q s = ⟨s.qubitCount, s.maxQPower, 1,
      applySingleVec q 0 1 1 0 ((1 / s.runningNorm : ℝ) : ℂ) s.maxQPower s.vec⟩ := rfl

/-- The apply2x2 kernel on a two-entry buffer performs the single pair
update at indices 1 and 0. -/
theorem applySingleVec_two (m0 m1 m2 m3 nrm : ℂ) (w : ℕ → ℂ) :
    applySingleVec 0 m0 m1 m2 m3 nrm 2 w
      = fun j => if j = 1 then nrm * (m0 * w 1 + m1 * w 0)
          else if j = 0 then nrm * (m2 * w 1 + m3 * w 0) else w j := by
  funext j
  rfl

/-- Setting the one bit of ket1 to one measures the one outcome and leaves
the phase-marked one state without a flip. -/
theorem setbit_ket1 (u θ : ℝ) (hu1 : u < 1) :
    SetBit 0 true u θ ket1
      = ⟨1, 2, 1, fun i => if i = 1 then (⟨Real.cos θ, Real.sin θ⟩ : ℂ) else 0⟩ := by
  have hMg := Mgate_true_eq 0 u θ ket1 rfl
    (by rw [Prob_ket1]; exact hu1) (by rw [Prob_ket1]; norm_num)
  show (if true ≠ (Mgate 0 u θ ket1).2 then Xgate 0 (Mgate 0 u θ ket1).1
      else (Mgate 0 u θ ket1).1) = _
  rw [hMg, if_neg (by simp)]
  have hvec : (fun i => if i &&& 2 ^ 0 = 0 then (0:ℂ)
      else ((⟨Real.cos θ, Real.sin θ⟩ : ℂ) / ((Prob 0 ket1 : ℝ) : ℂ)) * ket1.vec i)
      = fun i => if i = 1 then (⟨Real.cos θ, Real.sin θ⟩ : ℂ) else 0 := by
    funext i
    rw [Prob_ket1]
    by_cases hi1 : i = 1
    · subst hi1
      rw [if_neg (by decide : ¬((1:ℕ) &&& 2 ^ 0 = 0)), if_pos rfl]
      show ((⟨Real.cos θ, Real.sin θ⟩ : ℂ) / (((1:ℝ) : ℝ) : ℂ)) * ket1.vec 1 = _
      simp [ket1]
    · have hz : ket1.vec i = 0 := by
        show (if i = 1 then (1:ℂ) else 0) = 0
        rw [if_neg hi1]
      by_cases hc : i &&& 2 ^ 0 = 0
      · rw [if_pos hc, if_neg hi1]
      · rw [if_neg hc, hz, mul_zero, if_neg hi1]
  rw [hvec]
  have hns : normSqSum { ket1 with
      vec := fun i => if i = 1 then (⟨Real.cos θ, Real.sin θ⟩ : ℂ) else 0 } = 1 := by
    show (∑ i in Finset.range 2,
        Complex.normSq (if i = 1 then (⟨Real.cos θ, Real.sin θ⟩ : ℂ) else 0)) = 1
    rw [Finset.sum_range_succ, Finset.sum_range_one]
    simp [Complex.normSq_mk]
    rw [← Real.cos_sq_add_sin_sq θ]
    ring
  show (⟨1, 2, Real.sqrt (normSqSum { ket1 with
      vec := fun i => if i = 1 then (⟨Real.cos θ, Real.sin θ⟩ : ℂ) else 0 }),
      fun i => if i = 1 then (⟨Real.cos θ, Real.sin θ⟩ : ℂ) else 0⟩ : CU) = _
  rw [hns, Real.sqrt_one]

/-- Setting the one bit of ket0 to one measures the zero outcome and then
flips, producing the same phase-marked one state. -/
theorem setbit_ket0 (u θ : ℝ) :
    SetBit 0 true u θ ket0
      = ⟨1, 2, 1, fun i => if i = 1 then (⟨Real.cos θ, Real.sin θ⟩ : ℂ) else 0⟩ := by
  have hres : ¬ (u < Prob 0 ket0 ∧ 0 < Prob 0 ket0) := by
    rw [Prob_ket0]
    rintro ⟨_, h⟩
    exact lt_irrefl 0 h
  have hMg := Mgate_false_eq 0 u θ ket0 rfl hres (by rw [Prob_ket0]; norm_num)
  show (if true ≠ (Mgate 0 u θ ket0).2 then Xgate 0 (Mgate 0 u θ ket0).1
      else (Mgate 0 u θ ket0).1) = _
  rw [hMg, if_pos (by simp)]
  have hw : (fun i => if i &&& 2 ^ 0 = 0
      then ((⟨Real.cos θ, Real.sin θ⟩ : ℂ)
        / ((Real.sqrt (1 - Prob 0 ket0) : ℝ) : ℂ)) * ket0.vec i else 0)
      = fun i => if i = 0 then (⟨Real.cos θ, Real.sin θ⟩ : ℂ) else 0 := by
    funext i
    rw [Prob_ket0]
    by_cases hi0 : i = 0
    · subst hi0
      rw [if_pos (by decide : (0:ℕ) &&& 2 ^ 0 = 0), if_pos rfl]
      show ((⟨Real.cos θ, Real.sin θ⟩ : ℂ)
          / ((Real.sqrt (1 - 0) : ℝ) : ℂ)) * ket0.vec 0 = _
      norm_num [Real.sqrt_one, ket0]
    · have hz : ket0.vec i = 0 := by
        show (if i = 0 then (1:ℂ) else 0) = 0
        rw [if_neg hi0]
      by_cases hc : i &&& 2 ^ 0 = 0
      · rw [if_pos hc, hz, mul_zero, if_neg hi0]
      · rw [if_neg hc, if_neg hi0]
  rw [hw]
  have hns : normSqSum { ket0 with
      vec := fun i => if i = 0 then (⟨Real.cos θ, Real.sin θ⟩ : ℂ) else 0 } = 1 := by
    show (∑ i in Finset.range 2,
        Complex.normSq (if i = 0 then (⟨Real.cos θ, Real.sin θ⟩ : ℂ) else 0)) = 1
    rw [Finset.sum_range_succ, Finset.sum_range_one]
    simp [Complex.normSq_mk]
    rw [← Real.cos_sq_add_sin_sq θ]
    ring
  have hT : UpdateRunningNorm { ket0 with
      vec := fun i => if i = 0 then (⟨Real.cos θ, Real.sin θ⟩ : ℂ) else 0 }
      = ⟨1, 2, 1, fun i => if i = 0 then (⟨Real.cos θ, Real.sin θ⟩ : ℂ) else 0⟩ := by
    show (⟨1, 2, Real.sqrt (normSqSum { ket0 with
        vec := fun i => if i = 0 then (⟨Real.cos θ, Real.sin θ⟩ : ℂ) else 0 }),
        fun i => if i = 0 then (⟨Real.cos θ, Real.sin θ⟩ : ℂ) else 0⟩ : CU) = _
    rw [hns, Real.sqrt_one]
  rw [hT, Xgate_def]
  show (⟨1, 2, 1, applySingleVec 0 0 1 1 0 ((1 / (1:ℝ) : ℝ) : ℂ) 2
      (fun i => if i = 0 then (⟨Real.cos θ, Real.sin θ⟩ : ℂ) else 0)⟩ : CU) = _
  rw [applySingleVec_two]
  congr 1
  funext j
  by_cases hj1 : j = 1
  · subst hj1
    simp
  · by_cases hj0 : j = 0
    · subst hj0
      simp
    · simp only [if_neg hj1, if_neg hj0]

/-- Prob vanishes whenever every amplitude with the probed bit set is zero;
the normalization guard only rescales amplitudes and cannot revive them. -/
theorem Prob_zero_of_clear (q : ℕ) (s : CU)
    (h : ∀ i, i < s.maxQPower → i / 2 ^ q % 2 = 1 → s.vec i = 0) :
    Prob q s = 0 := by
  show (∑ i in Finset.range (preNorm s).maxQPower,
      if i &&& 2 ^ q = 2 ^ q then Complex.normSq ((preNorm s).vec i) else 0) = 0
  refine Finset.sum_eq_zero fun i hi => ?_
  rw [Finset.mem_range, preNorm_maxQPower] at hi
  by_cases hb : i / 2 ^ q % 2 = 1
  · rw [if_pos ((and_two_pow_set i q).mpr hb)]
    have hv : (preNorm s).vec i = 0 := by
      rw [preNorm]
      by_cases hrn : s.runningNorm ≠ 1
      · rw [if_pos hrn]
        show s.vec i / ((s.runningNorm : ℝ) : ℂ) = 0
        rw [h i hi hb, zero_div]
      · rw [if_neg hrn]
        exact h i hi hb
    rw [hv, Complex.normSq_zero]
  · rw [if_neg (fun hc => hb ((and_two_pow_set i q).mp hc))]

/-- True norm of the post-measurement state whose survivors carry the
probed bit set. -/
theorem normSqSum_keep_set (q : ℕ) (θ c : ℝ) (s : CU) :
    normSqSum { s with vec := fun i => if i &&& 2 ^ q = 0 then 0
        else ((⟨Real.cos θ, Real.sin θ⟩ : ℂ) / ((c : ℝ) : ℂ)) * s.vec i }
      = (∑ i in Finset.range s.maxQPower,
          if i / 2 ^ q % 2 = 1 then Complex.normSq (s.vec i) else 0) / (c * c) := by
  show (∑ i in Finset.range s.maxQPower, Complex.normSq
      (if i &&& 2 ^ q = 0 then (0:ℂ)
        else ((⟨Real.cos θ, Real.sin θ⟩ : ℂ) / ((c : ℝ) : ℂ)) * s.vec i)) = _
  rw [Finset.sum_div]
  refine Finset.sum_congr rfl fun i _ => ?_
  by_cases hb : i / 2 ^ q % 2 = 1
  · have hc : ¬ (i &&& 2 ^ q = 0) := by
      rw [and_two_pow_clear]
      omega
    rw [if_neg hc, if_pos hb, normSq_scaled]
  · have hc : i &&& 2 ^ q = 0 := by
      rw [and_two_pow_clear]
      omega
    rw [if_pos hc, if_neg hb, Complex.normSq_zero, zero_div]

/-- True norm of the post-measurement state whose survivors carry the
probed bit cleared. -/
theorem normSqSum_keep_clear (q : ℕ) (θ c : ℝ) (s : CU) :
    normSqSum { s with vec := fun i => if i &&& 2 ^ q = 0
        then ((⟨Real.cos θ, Real.sin θ⟩ : ℂ) / ((c : ℝ) : ℂ)) * s.vec i else 0 }
      = (∑ i in Finset.range s.maxQPower,
          if i / 2 ^ q % 2 = 1 then 0 else Complex.normSq (s.vec i)) / (c * c) := by
  show (∑ i in Finset.range s.maxQPower, Complex.normSq
      (if i &&& 2 ^ q = 0
        then ((⟨Real.cos θ, Real.sin θ⟩ : ℂ) / ((c : ℝ) : ℂ)) * s.vec i else 0)) = _
  rw [Finset.sum_div]
  refine Finset.sum_congr rfl fun i _ => ?_
  by_cases hb : i / 2 ^ q % 2 = 1
  · have hc : ¬ (i &&& 2 ^ q = 0) := by
      rw [and_two_pow_clear]
      omega
    rw [if_neg hc, if_pos hb, Complex.normSq_zero, zero_div]
  · have hc : i &&& 2 ^ q = 0 := by
      rw [and_two_pow_clear]
      omega
    rw [if_pos hc, if_neg hb, normSq_scaled]

/-- After UpdateRunningNorm, a state supported on the set-bit indices reads
probability one at the probed bit. -/
theorem Prob_after_keep_set (q : ℕ) (s0 : CU)
    (hclear : ∀ i, i / 2 ^ q % 2 = 0 → s0.vec i = 0)
    (hpos : 0 < normSqSum s0) :
    Prob q (UpdateRunningNorm s0) = 1 := by
  have hup : normSqSum (UpdateRunningNorm s0) = normSqSum s0 := rfl
  rw [Prob_of_sqrt q (UpdateRunningNorm s0) rfl (by rw [hup]; exact hpos), hup]
  have hnum : (∑ i in Finset.range (UpdateRunningNorm s0).maxQPower,
      if i / 2 ^ q % 2 = 1 then Complex.normSq ((UpdateRunningNorm s0).vec i) else 0)
      = normSqSum s0 := by
    show (∑ i in Finset.range s0.maxQPower,
        if i / 2 ^ q % 2 = 1 then Complex.normSq (s0.vec i) else 0)
      = ∑ i in Finset.range s0.maxQPower, Complex.normSq (s0.vec i)
    refine Finset.sum_congr rfl fun i _ => ?_
    by_cases hb : i / 2 ^ q % 2 = 1
    · rw [if_pos hb]
    · rw [if_neg hb, hclear i (by omega), Complex.normSq_zero]
  rw [hnum, div_self (ne_of_gt hpos)]

/-- After UpdateRunningNorm, a state supported on the cleared-bit indices
reads probability zero at the probed bit. -/
theorem Prob_after_keep_clear (q : ℕ) (s0 : CU)
    (hset : ∀ i, i / 2 ^ q % 2 = 1 → s0.vec i = 0) :
    Prob q (UpdateRunningNorm s0) = 0 :=
  Prob_zero_of_clear q _ (fun i _ hb => hset i hb)

/-- After UpdateRunningNorm and an X flip, a state supported on the set-bit
indices reads probability zero at the probed bit. -/
theorem Prob_after_flip_set (q n : ℕ) (s0 : CU) (hqn : q < n)
    (hm : s0.maxQPower = 2 ^ n)
    (hclear : ∀ i, i / 2 ^ q % 2 = 0 → s0.vec i = 0) :
    Prob q (Xgate q (UpdateRunningNorm s0)) = 0 := by
  have hXq := Xgate_eq q n hqn (UpdateRunningNorm s0) hm
  refine Prob_zero_of_clear q _ (fun j hj hb => ?_)
  have hj2 : j < 2 ^ n := by
    rw [← hm]
    exact hj
  rw [hXq.2.2.2 j hj2, if_pos hb]
  have hv : (UpdateRunningNorm s0).vec (j - 2 ^ q) = s0.vec (j - 2 ^ q) := rfl
  rw [hv, hclear _ (parity_down q j hb).2.1, mul_zero]

/-- After UpdateRunningNorm and an X flip, a state supported on the
cleared-bit indices with positive true norm reads probability one at the
probed bit. -/
theorem Prob_after_flip_clear (q n : ℕ) (s0 : CU) (hqn : q < n)
    (hm : s0.maxQPower = 2 ^ n)
    (hset : ∀ i, i / 2 ^ q % 2 = 1 → s0.vec i = 0)
    (hpos : 0 < normSqSum s0) :
    Prob q (Xgate q (UpdateRunningNorm s0)) = 1 := by
  have hXq := Xgate_eq q n hqn (UpdateRunningNorm s0) hm
  rw [Prob_parity q _ hXq.2.2.1]
  have hFm : (Xgate q (UpdateRunningNorm s0)).maxQPower = 2 ^ n := hXq.2.1.trans hm
  rw [hFm]
  have hrn : (UpdateRunningNorm s0).runningNorm = Real.sqrt (normSqSum s0) := rfl
  have hsq : Real.sqrt (normSqSum s0) * Real.sqrt (normSqSum s0) = normSqSum s0 :=
    Real.mul_self_sqrt hpos.le
  have hterm : ∀ j ∈ Finset.range (2 ^ n),
      (if j / 2 ^ q % 2 = 1
        then Complex.normSq ((Xgate q (UpdateRunningNorm s0)).vec j) else 0)
      = if j / 2 ^ q % 2 = 1
        then Complex.normSq (s0.vec (j - 2 ^ q)) / normSqSum s0 else 0 := by
    intro j hj
    rw [Finset.mem_range] at hj
    by_cases hb : j / 2 ^ q % 2 = 1
    · rw [if_pos hb, if_pos hb, hXq.2.2.2 j hj, if_pos hb]
      have hv : (UpdateRunningNorm s0).vec (j - 2 ^ q) = s0.vec (j - 2 ^ q) := rfl
      rw [hv, Complex.normSq_mul, Complex.normSq_ofReal, hrn, div_mul_div_comm,
        one_mul, hsq, one_div_mul_eq_div]
    · rw [if_neg hb, if_neg hb]
  have hshift := sum_pair_shift n q hqn
    (fun i => Complex.normSq (s0.vec i) / normSqSum s0)
  rw [Finset.sum_congr rfl hterm, hshift]
  have hdiv : ∀ i ∈ Finset.range (2 ^ n),
      (if i / 2 ^ q % 2 = 1 then (0:ℝ) else Complex.normSq (s0.vec i) / normSqSum s0)
      = (if i / 2 ^ q % 2 = 1 then 0 else Complex.normSq (s0.vec i)) / normSqSum s0 := by
    intro i _
    by_cases hb : i / 2 ^ q % 2 = 1
    · rw [if_pos hb, if_pos hb, zero_div]
    · rw [if_neg hb, if_neg hb]
  rw [Finset.sum_congr rfl hdiv, ← Finset.sum_div]
  have htot : (∑ i in Finset.range (2 ^ n),
      if i / 2 ^ q % 2 = 1 then (0:ℝ) else Complex.normSq (s0.vec i))
      = normSqSum s0 := by
    have hsp := sum_parity_split (2 ^ n) q (fun i => Complex.normSq (s0.vec i))
    have hzero : (∑ i in Finset.range (2 ^ n),
        if i / 2 ^ q % 2 = 1 then Complex.normSq (s0.vec i) else 0) = 0 := by
      refine Finset.sum_eq_zero fun i _ => ?_
      by_cases hb : i / 2 ^ q % 2 = 1
      · rw [if_pos hb, hset i hb, Complex.normSq_zero]
      · rw [if_neg hb]
    have hns : normSqSum s0 = ∑ i in Finset.range (2 ^ n), Complex.normSq (s0.vec i) := by
      rw [normSqSum, hm]
    rw [hns, ← hsp, hzero, zero_add]
  rw [htot, div_self (ne_of_gt hpos)]

/-- C9: SetBit performs the projective measurement M on the chosen bit
(collapsing with renormalization and a fresh random phase) and then applies
the X gate exactly when the measured result differs from the requested
value, so the final probability of reading the bit as one is 1 when the
requested value is true and 0 when it is false.  SetBit is not injective on
normalized states -- both one-qubit basis states are sent to the same
register -- hence it is not a unitary reset. -/
theorem C9_setbit_measure_then_flip (q n : ℕ) (v : Bool) (u θ : ℝ) (s : CU)
    (hqn : q < n) (hm : s.maxQPower = 2 ^ n) (h1 : s.runningNorm = 1)
    (hS : normSqSum s = 1) (hu1 : u < 1) :
    (SetBit q v u θ s
      = if v ≠ (Mgate q u θ s).2 then Xgate q (Mgate q u θ s).1
        else (Mgate q u θ s).1)
    ∧ Prob q (SetBit q v u θ s) = (if v then 1 else 0)
    ∧ ket0 ≠ ket1
    ∧ SetBit 0 true u θ ket0 = SetBit 0 true u θ ket1 := by
  refine ⟨rfl, ?_, ?_, (setbit_ket0 u θ).trans (setbit_ket1 u θ hu1).symm⟩
  · have hPpar : Prob q s = ∑ i in Finset.range (2 ^ n),
        if i / 2 ^ q % 2 = 1 then Complex.normSq (s.vec i) else 0 := by
      rw [Prob_parity q s h1, hm]
    have hSn : (∑ i in Finset.range (2 ^ n), Complex.normSq (s.vec i)) = 1 := by
      rw [← hm]
      exact hS
    have hsplit : Prob q s + (∑ i in Finset.range (2 ^ n),
        if i / 2 ^ q % 2 = 1 then 0 else Complex.normSq (s.vec i)) = 1 := by
      rw [hPpar, sum_parity_split]
      exact hSn
    rcases Classical.em (u < Prob q s ∧ 0 < Prob q s) with hres | hres
    · have hMg := Mgate_true_eq q u θ s h1 hres.1 hres.2
      have hposT : 0 < normSqSum { s with vec := fun i =>
          if i &&& 2 ^ q = 0 then 0
          else ((⟨Real.cos θ, Real.sin θ⟩ : ℂ)
            / ((Prob q s : ℝ) : ℂ)) * s.vec i } := by
        rw [normSqSum_keep_set, hm, ← hPpar]
        exact div_pos hres.2 (mul_pos hres.2 hres.2)
      have hVsupp : ∀ i, i / 2 ^ q % 2 = 0 →
          ({ s with vec := fun i => if i &&& 2 ^ q = 0 then 0
            else ((⟨Real.cos θ, Real.sin θ⟩ : ℂ)
              / ((Prob q s : ℝ) : ℂ)) * s.vec i } : CU).vec i = 0 := by
        intro i hb
        show (if i &&& 2 ^ q = 0 then (0:ℂ)
          else ((⟨Real.cos θ, Real.sin θ⟩ : ℂ)
            / ((Prob q s : ℝ) : ℂ)) * s.vec i) = 0
        rw [if_pos ((and_two_pow_clear i q).mpr hb)]
      cases v with
      | true =>
        have hSB : SetBit q true u θ s = (Mgate q u θ s).1 := by
          show (if true ≠ (Mgate q u θ s).2 then Xgate q (Mgate q u θ s).1
              else (Mgate q u θ s).1) = (Mgate q u θ s).1
          rw [hMg]
          simp
        rw [hSB, hMg]
        show Prob q (UpdateRunningNorm { s with vec := fun i => if i &&& 2 ^ q = 0 then 0 else ((⟨Real.cos θ, Real.sin θ⟩ : ℂ) / ((Prob q s : ℝ) : ℂ)) * s.vec i }) = 1
        exact Prob_after_keep_set q _ hVsupp hposT
      | false =>
        have hSB : SetBit q false u θ s = Xgate q (Mgate q u θ s).1 := by
          show (if false ≠ (Mgate q u θ s).2 then Xgate q (Mgate q u θ s).1
              else (Mgate q u θ s).1) = Xgate q (Mgate q u θ s).1
          rw [hMg]
          simp
        rw [hSB, hMg]
        show Prob q (Xgate q (UpdateRunningNorm { s with vec := fun i => if i &&& 2 ^ q = 0 then 0 else ((⟨Real.cos θ, Real.sin θ⟩ : ℂ) / ((Prob q s : ℝ) : ℂ)) * s.vec i })) = 0
        exact Prob_after_flip_set q n _ hqn hm hVsupp
    · have hP1 : Prob q s < 1 := by
        by_contra hge
        push_neg at hge
        exact hres ⟨lt_of_lt_of_le hu1 hge, lt_of_lt_of_le one_pos hge⟩
      have h1P : 0 < 1 - Prob q s := by linarith
      have hMg := Mgate_false_eq q u θ s h1 hres hP1
      have hWsupp : ∀ i, i / 2 ^ q % 2 = 1 →
          ({ s with vec := fun i => if i &&& 2 ^ q = 0
            then ((⟨Real.cos θ, Real.sin θ⟩ : ℂ)
              / ((Real.sqrt (1 - Prob q s) : ℝ) : ℂ)) * s.vec i else 0 } : CU).vec i
          = 0 := by
        intro i hb
        show (if i &&& 2 ^ q = 0
            then ((⟨Real.cos θ, Real.sin θ⟩ : ℂ)
              / ((Real.sqrt (1 - Prob q s) : ℝ) : ℂ)) * s.vec i else 0) = 0
        have hc : ¬ (i &&& 2 ^ q = 0) := by
          rw [and_two_pow_clear]
          omega
        rw [if_neg hc]
      have hposW : 0 < normSqSum { s with vec := fun i => if i &&& 2 ^ q = 0
          then ((⟨Real.cos θ, Real.sin θ⟩ : ℂ)
            / ((Real.sqrt (1 - Prob q s) : ℝ) : ℂ)) * s.vec i else 0 } := by
        rw [normSqSum_keep_clear, hm, Real.mul_self_sqrt h1P.le]
        have hclearval : (∑ i in Finset.range (2 ^ n),
            if i / 2 ^ q % 2 = 1 then (0:ℝ) else Complex.normSq (s.vec i))
            = 1 - Prob q s := by linarith
        rw [hclearval]
        exact div_pos h1P h1P
      cases v with
      | true =>
        have hSB : SetBit q true u θ s = Xgate q (Mgate q u θ s).1 := by
          show (if true ≠ (Mgate q u θ s).2 then Xgate q (Mgate q u θ s).1
              else (Mgate q u θ s).1) = Xgate q (Mgate q u θ s).1
          rw [hMg]
          simp
        rw [hSB, hMg]
        show Prob q (Xgate q (UpdateRunningNorm { s with vec := fun i => if i &&& 2 ^ q = 0 then ((⟨Real.cos θ, Real.sin θ⟩ : ℂ) / ((Real.sqrt (1 - Prob q s) : ℝ) : ℂ)) * s.vec i else 0 })) = 1
        exact Prob_after_flip_clear q n _ hqn hm hWsupp hposW
      | false =>
        have hSB : SetBit q false u θ s = (Mgate q u θ s).1 := by
          show (if false ≠ (Mgate q u θ s).2 then Xgate q (Mgate q u θ s).1
              else (Mgate q u θ s).1) = (Mgate q u θ s).1
          rw [hMg]
          simp
        rw [hSB, hMg]
        show Prob q (UpdateRunningNorm { s with vec := fun i => if i &&& 2 ^ q = 0 then ((⟨Real.cos θ, Real.sin θ⟩ : ℂ) / ((Real.sqrt (1 - Prob q s) : ℝ) : ℂ)) * s.vec i else 0 }) = 0
        exact Prob_after_keep_clear q _ hWsupp
  · intro hcontra
    have hv := congrFun (congrArg CU.vec hcontra) 0
    simp [ket0, ket1] at hv

/-- Witness for C9 on the one-qubit one basis state with q = 0, n = 1,
v = true, u = 1/2 and phase draw 0: the hypotheses hold and the final
one-probability is 1. -/
theorem C9_setbit_measure_then_flip_witness :
    ((0:ℕ) < 1 ∧ ket1.maxQPower = 2 ^ 1 ∧ ket1.runningNorm = 1
      ∧ normSqSum ket1 = 1 ∧ (1:ℝ)/2 < 1)
    ∧ Prob 0 (SetBit 0 true (1/2) 0 ket1) = 1 := by
  have hns : normSqSum ket1 = 1 := by
    show (∑ i in Finset.range 2, Complex.normSq (ket1.vec i)) = 1
    rw [Finset.sum_range_succ, Finset.sum_range_one]
    show Complex.normSq 0 + Complex.normSq 1 = 1
    simp
  refine ⟨⟨by norm_num, rfl, rfl, hns, by norm_num⟩, ?_⟩
  have h := C9_setbit_measure_then_flip 0 1 true (1/2) 0 ket1
    (by norm_num) rfl rfl hns (by norm_num)
  have h2 := h.2.1
  simpa using h2

end Qrack
